import Mathlib

/-!
Verification of the Othello engine core (an 8×8 bit-packed board with move
generation, move resolution, a random-rollout engine and an endgame solver)
against its natural-language specification.

Bitboards (`uint64_t` in the C sources) are modelled as natural numbers below
`2^64`; C unsigned arithmetic wraps, so every left shift is truncated with
`% 2^64`.  The Cython/NumPy boundary layer works on 8×8 boolean matrices,
modelled as `Fin 8 → Fin 8 → Bool`.
-/

namespace Seldon

/-- The all-ones 64-bit word. -/
def mask64 : Nat := 2 ^ 64 - 1

/-- C `uint64_t` left shift: shift, then truncate to 64 bits. -/
def shl (x n : Nat) : Nat := (x <<< n) % 2 ^ 64

/-- C `uint64_t` bitwise complement `~x` of a word `x < 2^64`. -/
def compl64 (x : Nat) : Nat := x ^^^ mask64

/-- The constant `_notAFile` from `cbitboard.c`. -/
def notAFile : Nat := 0xfefefefefefefefe

/-- The constant `_notHFile` from `cbitboard.c`. -/
def notHFile : Nat := 0x7f7f7f7f7f7f7f7f

/-- Kogge–Stone occluded fill towards higher bit indices with base shift `s`
(shift amounts `s`, `2*s`, `4*s`).  This is the common shape of `nortOccl`
(`s = 8`), `eastOccl` (`s = 1`), `noEaOccl` (`s = 9`) and `noWeOccl` (`s = 7`)
in `cbitboard.c`; the directions that pre-mask `pro` with a file mask pass the
masked propagator. -/
def occlL (s gen pro : Nat) : Nat :=
  let gen1 := gen ||| (pro &&& shl gen s)
  let pro1 := pro &&& shl pro s
  let gen2 := gen1 ||| (pro1 &&& shl gen1 (2 * s))
  let pro2 := pro1 &&& shl pro1 (2 * s)
  gen2 ||| (pro2 &&& shl gen2 (4 * s))

/-- Kogge–Stone occluded fill towards lower bit indices with base shift `s`,
the common shape of `soutOccl` (`s = 8`), `westOccl` (`s = 1`), `soWeOccl`
(`s = 9`) and `soEaOccl` (`s = 7`) in `cbitboard.c`. -/
def occlR (s gen pro : Nat) : Nat :=
  let gen1 := gen ||| (pro &&& (gen >>> s))
  let pro1 := pro &&& (pro >>> s)
  let gen2 := gen1 ||| (pro1 &&& (gen1 >>> (2 * s)))
  let pro2 := pro1 &&& (pro1 >>> (2 * s))
  gen2 ||| (pro2 &&& (gen2 >>> (4 * s)))

/-- The `soutOccl` fill of `cbitboard.c`. -/
def soutOccl (gen pro : Nat) : Nat := occlR 8 gen pro

/-- The `nortOccl` fill of `cbitboard.c`. -/
def nortOccl (gen pro : Nat) : Nat := occlL 8 gen pro

/-- The `eastOccl` fill of `cbitboard.c` (propagator pre-masked with `_notAFile`). -/
def eastOccl (gen pro : Nat) : Nat := occlL 1 gen (pro &&& notAFile)

/-- The `noEaOccl` fill of `cbitboard.c` (propagator pre-masked with `_notAFile`). -/
def noEaOccl (gen pro : Nat) : Nat := occlL 9 gen (pro &&& notAFile)

/-- The `soEaOccl` fill of `cbitboard.c` (propagator pre-masked with `_notAFile`). -/
def soEaOccl (gen pro : Nat) : Nat := occlR 7 gen (pro &&& notAFile)

/-- The `westOccl` fill of `cbitboard.c` (propagator pre-masked with `_notHFile`). -/
def westOccl (gen pro : Nat) : Nat := occlR 1 gen (pro &&& notHFile)

/-- The `soWeOccl` fill of `cbitboard.c` (propagator pre-masked with `_notHFile`). -/
def soWeOccl (gen pro : Nat) : Nat := occlR 9 gen (pro &&& notHFile)

/-- The `noWeOccl` fill of `cbitboard.c` (propagator pre-masked with `_notHFile`). -/
def noWeOccl (gen pro : Nat) : Nat := occlL 7 gen (pro &&& notHFile)

/-- The `sout_one` single-step shift of `cbitboard.c`: `gen >> 8`. -/
def sout_one (gen : Nat) : Nat := gen >>> 8

/-- The `nort_one` single-step shift of `cbitboard.c`: `gen << 8`. -/
def nort_one (gen : Nat) : Nat := shl gen 8

/-- The `east_one` single-step shift of `cbitboard.c`:
`gen &= _notAFile; return gen << 1`. -/
def east_one (gen : Nat) : Nat := shl (gen &&& notAFile) 1

/-- The `noea_one` single-step shift of `cbitboard.c`:
`gen &= _notAFile; return gen << 9`. -/
def noea_one (gen : Nat) : Nat := shl (gen &&& notAFile) 9

/-- The `soea_one` single-step shift of `cbitboard.c`:
`gen &= _notAFile; return gen >> 7`. -/
def soea_one (gen : Nat) : Nat := (gen &&& notAFile) >>> 7

/-- The `west_one` single-step shift of `cbitboard.c`:
`gen &= _notHFile; return gen >> 1`. -/
def west_one (gen : Nat) : Nat := (gen &&& notHFile) >>> 1

/-- The `sowe_one` single-step shift of `cbitboard.c`:
`gen &= _notHFile; return gen >> 9`. -/
def sowe_one (gen : Nat) : Nat := (gen &&& notHFile) >>> 9

/-- The `nowe_one` single-step shift of `cbitboard.c`:
`gen &= _notHFile; return gen << 7`. -/
def nowe_one (gen : Nat) : Nat := shl (gen &&& notHFile) 7

/-- Number of set bits of a 64-bit word; the semantics of `c_popcount_64`
(`__builtin_popcountll` on a `uint64_t`, which has bit positions `0`–`63`). -/
def popcount (x : Nat) : Nat :=
  ((Finset.range 64).filter (fun i => x.testBit i)).card

/-- The `c_extract_disk` operation of `cbitboard.c`:
`bitboard & (uint64_t)(-(int64_t)bitboard)`, the two's-complement negation
taken modulo `2^64`. -/
def c_extract_disk (bitboard : Nat) : Nat :=
  bitboard &&& ((2 ^ 64 - bitboard) % 2 ^ 64)

/-- The `c_resolve_move` operation of `cbitboard.c`: the mask of opponent
disks flipped when `player` plays the singleton `new_disk`. -/
def c_resolve_move (player opp new_disk : Nat) : Nat :=
  let m1 := soutOccl player opp &&& nortOccl new_disk opp
  let m2 := nortOccl player opp &&& soutOccl new_disk opp
  let m3 := eastOccl player opp &&& westOccl new_disk opp
  let m4 := westOccl player opp &&& eastOccl new_disk opp
  let m5 := soWeOccl player opp &&& noEaOccl new_disk opp
  let m6 := noEaOccl player opp &&& soWeOccl new_disk opp
  let m7 := soEaOccl player opp &&& noWeOccl new_disk opp
  let m8 := noWeOccl player opp &&& soEaOccl new_disk opp
  m1 ||| m2 ||| m3 ||| m4 ||| m5 ||| m6 ||| m7 ||| m8

/-- The `c_make_singleton_bitboard` operation of `cbitboard.c`. -/
def c_make_singleton_bitboard (x y : Nat) : Nat :=
  shl 1 ((7 - y) * 8 + (7 - x))

/-- The `c_find_moves` operation of `cbitboard.c`: the bitboard of legal
moves for `gen` against `pro`. -/
def c_find_moves (gen pro : Nat) : Nat :=
  let empty := compl64 (gen ||| pro)
  let t1 := soutOccl gen pro &&& pro
  let m1 := (t1 >>> 8) &&& empty
  let t2 := nortOccl gen pro &&& pro
  let m2 := shl t2 8 &&& empty
  let t3 := eastOccl gen pro &&& pro
  let m3 := shl t3 1 &&& notAFile &&& empty
  let t4 := westOccl gen pro &&& pro
  let m4 := (t4 >>> 1) &&& notHFile &&& empty
  let t5 := soEaOccl gen pro &&& pro
  let m5 := (t5 >>> 7) &&& notAFile &&& empty
  let t6 := soWeOccl gen pro &&& pro
  let m6 := (t6 >>> 9) &&& notHFile &&& empty
  let t7 := noEaOccl gen pro &&& pro
  let m7 := shl t7 9 &&& notAFile &&& empty
  let t8 := noWeOccl gen pro &&& pro
  let m8 := shl t8 7 &&& notHFile &&& empty
  m1 ||| m2 ||| m3 ||| m4 ||| m5 ||| m6 ||| m7 ||| m8

/-! ### Basic facts about the 64-bit embedding -/

theorem mask64_testBit (i : Nat) : mask64.testBit i = decide (i < 64) := by
  simpa [mask64] using Nat.testBit_two_pow_sub_one 64 i

theorem shl_lt (x n : Nat) : shl x n < 2 ^ 64 := by
  exact Nat.mod_lt _ (by norm_num)

theorem shl_testBit (x n i : Nat) :
    (shl x n).testBit i = (decide (i < 64) && (decide (i ≥ n) && x.testBit (i - n))) := by
  simp only [shl, Nat.testBit_mod_two_pow, Nat.testBit_shiftLeft]

theorem compl64_testBit (x i : Nat) :
    (compl64 x).testBit i = (x.testBit i).xor (decide (i < 64)) := by
  simp [compl64, Nat.testBit_xor, mask64_testBit]

theorem compl64_testBit_lt (x i : Nat) (h : i < 64) :
    (compl64 x).testBit i = !(x.testBit i) := by
  simp [compl64_testBit, h]

theorem testBit_false_of_ge {x i : Nat} (hx : x < 2 ^ 64) (h : 64 ≤ i) :
    x.testBit i = false :=
  Nat.testBit_lt_two_pow (lt_of_lt_of_le hx (Nat.pow_le_pow_right (by norm_num) h))

theorem lt_of_testBit_64 {x i : Nat} (hx : x < 2 ^ 64) (h : x.testBit i = true) :
    i < 64 := by
  by_contra hge
  rw [testBit_false_of_ge hx (le_of_not_lt hge)] at h
  exact Bool.false_ne_true h

theorem ne_zero_of_testBit {x i : Nat} (h : x.testBit i = true) : x ≠ 0 := by
  intro h0; subst h0; simp [Nat.zero_testBit] at h

/-! ### The lowest set bit: `c_extract_disk` extracts exactly `2^k` -/

theorem exists_lowBit : ∀ m : Nat, m ≠ 0 →
    ∃ k, m.testBit k = true ∧ ∀ j, j < k → m.testBit j = false := by
  intro m
  induction m using Nat.strong_induction_on with
  | _ m ih =>
    intro hm
    rcases Nat.even_or_odd m with he | ho
    · have hmod : m % 2 = 0 := Nat.even_iff.mp he
      have h2 : m / 2 ≠ 0 := by
        intro h0
        exact hm (by omega)
      obtain ⟨k, hk, hlow⟩ :=
        ih (m / 2) (Nat.div_lt_self (Nat.pos_of_ne_zero hm) one_lt_two) h2
      refine ⟨k + 1, by simpa [Nat.testBit_succ] using hk, ?_⟩
      intro j hj
      match j with
      | 0 =>
        simp only [Nat.testBit_zero, decide_eq_false_iff_not]
        omega
      | j + 1 =>
        rw [Nat.testBit_succ]
        exact hlow j (by omega)
    · have hmod : m % 2 = 1 := Nat.odd_iff.mp ho
      exact ⟨0, by simp [Nat.testBit_zero, hmod], fun j hj => by omega⟩

theorem testBit_pred_odd {m : Nat} (hodd : m % 2 = 1) (i : Nat) (hi : 1 ≤ i) :
    (m - 1).testBit i = m.testBit i := by
  obtain ⟨i, rfl⟩ : ∃ j, i = j + 1 := ⟨i - 1, by omega⟩
  rw [Nat.testBit_succ, Nat.testBit_succ]
  congr 1
  omega

theorem extract_eq_pow (m : Nat) (h0 : m ≠ 0) (h64 : m < 2 ^ 64) :
    ∃ k, k < 64 ∧ m.testBit k = true ∧ c_extract_disk m = 2 ^ k := by
  obtain ⟨k, hk, hlow⟩ := exists_lowBit m h0
  have hk64 : k < 64 := lt_of_testBit_64 h64 hk
  have hdvd : m % 2 ^ k = 0 := by
    apply Nat.eq_of_testBit_eq
    intro i
    rw [Nat.testBit_mod_two_pow, Nat.zero_testBit]
    by_cases hik : i < k
    · simp [hik, hlow i hik]
    · simp [hik]
  have hdm : 2 ^ k * (m / 2 ^ k) + m % 2 ^ k = m := Nat.div_add_mod m (2 ^ k)
  obtain ⟨m1, hmeq⟩ : ∃ m1, m = 2 ^ k * m1 := ⟨m / 2 ^ k, by omega⟩
  have hm1div : m / 2 ^ k = m1 := by
    rw [hmeq]
    exact Nat.mul_div_cancel_left m1 (pow_pos (by norm_num) k)
  have hm1odd : m1 % 2 = 1 := by
    have h := hk
    rw [Nat.testBit_to_div_mod] at h
    have := of_decide_eq_true h
    rwa [hm1div] at this
  have hm1pos : 0 < m1 := by
    rcases Nat.eq_zero_or_pos m1 with h1 | h1
    · rw [h1, Nat.mul_zero] at hmeq
      exact absurd hmeq h0
    · exact h1
  have hm1lt : m1 < 2 ^ (64 - k) := by
    rw [← hm1div, Nat.div_lt_iff_lt_mul (pow_pos (by norm_num) k)]
    calc m < 2 ^ 64 := h64
    _ = 2 ^ (64 - k) * 2 ^ k := by rw [← pow_add]; congr 1; omega
  have hsub : 2 ^ 64 - m = 2 ^ k * (2 ^ (64 - k) - m1) := by
    have h2 : (2 : Nat) ^ 64 = 2 ^ k * 2 ^ (64 - k) := by rw [← pow_add]; congr 1; omega
    rw [h2, hmeq, Nat.mul_sub_left_distrib]
  have hodd2 : (2 ^ (64 - k) - m1) % 2 = 1 := by
    have hek : (2 : Nat) ^ (64 - k) % 2 = 0 := by
      have h1 : 64 - k = (64 - k - 1) + 1 := by omega
      rw [h1, pow_succ]
      exact Nat.mul_mod_left _ 2
    omega
  have hmod : (2 ^ 64 - m) % 2 ^ 64 = 2 ^ 64 - m := Nat.mod_eq_of_lt (by omega)
  refine ⟨k, hk64, hk, ?_⟩
  apply Nat.eq_of_testBit_eq
  intro j
  rw [c_extract_disk, hmod, Nat.testBit_and, Nat.testBit_two_pow]
  rcases lt_trichotomy j k with hjk | hjk | hjk
  · simp [hlow j hjk, Nat.ne_of_gt hjk]
  · subst hjk
    rw [hsub, Nat.testBit_mul_pow_two]
    simp [hk, Nat.testBit_to_div_mod, hodd2]
  · have hne : decide (k = j) = false := by simp; omega
    rw [hne]
    by_cases hj64 : j < 64
    · have hmj : m.testBit j = m1.testBit (j - k) := by
        rw [hmeq, Nat.testBit_mul_pow_two]
        simp [Nat.le_of_lt hjk]
      have htj : (2 ^ 64 - m).testBit j = !m1.testBit (j - k) := by
        rw [hsub, Nat.testBit_mul_pow_two]
        have hx : 2 ^ (64 - k) - m1 = 2 ^ (64 - k) - ((m1 - 1) + 1) := by omega
        rw [hx, Nat.testBit_two_pow_sub_succ (by omega)]
        have hlt : j - k < 64 - k := by omega
        simp only [Nat.le_of_lt hjk, Bool.true_and, hlt, decide_eq_true_eq]
        rw [testBit_pred_odd hm1odd (j - k) (by omega)]
        simp [Nat.le_of_lt hjk]
      rw [hmj, htj]
      cases m1.testBit (j - k) <;> simp
    · simp [testBit_false_of_ge h64 (le_of_not_lt hj64)]

theorem extract_and_compl_lt (m : Nat) (h0 : m ≠ 0) :
    m &&& compl64 (c_extract_disk m) < m := by
  by_cases h64 : m < 2 ^ 64
  · obtain ⟨k, hk64, hbit, heq⟩ := extract_eq_pow m h0 h64
    have hle : m &&& compl64 (c_extract_disk m) ≤ m := Nat.and_le_left
    have hne : m &&& compl64 (c_extract_disk m) ≠ m := by
      intro hcontra
      have h := congrArg (fun z => z.testBit k) hcontra
      simp only [Nat.testBit_and] at h
      rw [heq, compl64_testBit_lt _ _ hk64, Nat.testBit_two_pow_self, hbit] at h
      simp at h
    omega
  · have hsub0 : 2 ^ 64 - m = 0 := by omega
    have hex : c_extract_disk m = 0 := by
      rw [c_extract_disk, hsub0]
      simp
    rw [hex]
    have hc : compl64 0 = 2 ^ 64 - 1 := by simp [compl64, mask64]
    rw [hc, Nat.and_pow_two_sub_one_eq_mod]
    have : m % 2 ^ 64 < 2 ^ 64 := Nat.mod_lt _ (by norm_num)
    omega

/-- The move-extraction loop shared by `c_solve_game`, `negamax` and
`negamax_fastest_first` in `csolver.c`: repeatedly take the lowest set bit
with `bitboard_extract_disk` and clear it (`moves &= ~new_move`), producing
the list of singleton move bitboards in LSB-first order. -/
def extractList (moves : Nat) : List Nat :=
  if h : moves = 0 then []
  else
    c_extract_disk moves :: extractList (moves &&& compl64 (c_extract_disk moves))
termination_by moves
decreasing_by exact extract_and_compl_lt moves h

theorem extractList_nil : extractList 0 = [] := by
  rw [extractList]
  simp

theorem extractList_cons (m : Nat) (h : m ≠ 0) :
    extractList m = c_extract_disk m :: extractList (m &&& compl64 (c_extract_disk m)) := by
  rw [extractList]
  simp [h]

theorem extractList_mem_pow : ∀ m, m < 2 ^ 64 → ∀ x ∈ extractList m,
    ∃ k, k < 64 ∧ x = 2 ^ k := by
  intro m
  induction m using Nat.strong_induction_on with
  | _ m ih =>
    intro h64 x hx
    by_cases h : m = 0
    · subst h
      rw [extractList_nil] at hx
      simp at hx
    · rw [extractList_cons m h] at hx
      rcases List.mem_cons.mp hx with hhead | htail
      · obtain ⟨k, hk64, _, heq⟩ := extract_eq_pow m h h64
        exact ⟨k, hk64, by rw [hhead, heq]⟩
      · exact ih _ (extract_and_compl_lt m h)
          (lt_of_le_of_lt Nat.and_le_left h64) x htail

/-! ### Popcount toolkit -/

theorem popcount_eq_sum (x : Nat) :
    popcount x = ∑ i ∈ Finset.range 64, (if x.testBit i then 1 else 0) := by
  rw [popcount, Finset.card_filter]

theorem popcount_le (x : Nat) : popcount x ≤ 64 := by
  rw [popcount_eq_sum]
  calc ∑ i ∈ Finset.range 64, (if x.testBit i then 1 else 0)
      ≤ ∑ _i ∈ Finset.range 64, 1 :=
        Finset.sum_le_sum (fun i _ => by split <;> omega)
  _ = 64 := by simp

theorem popcount_lor (a b : Nat) (hd : a &&& b = 0) :
    popcount (a ||| b) = popcount a + popcount b := by
  rw [popcount_eq_sum a, popcount_eq_sum b, popcount_eq_sum (a ||| b),
    ← Finset.sum_add_distrib]
  apply Finset.sum_congr rfl
  intro i _
  have hdi : (a &&& b).testBit i = false := by rw [hd, Nat.zero_testBit]
  rw [Nat.testBit_and] at hdi
  rw [Nat.testBit_or]
  cases hai : a.testBit i <;> cases hbi : b.testBit i <;>
    simp [hai, hbi] at hdi ⊢

theorem subset_le {a b : Nat} (hb : b &&& a = b) : b ≤ a := by
  calc b = b &&& a := hb.symm
  _ ≤ a := Nat.and_le_right

theorem subset_testBit {a b : Nat} (hb : b &&& a = b) {i : Nat}
    (h : b.testBit i = true) : a.testBit i = true := by
  have := congrArg (fun z => z.testBit i) hb
  simp only [Nat.testBit_and] at this
  rw [h] at this
  simpa using this.symm

theorem xor_subset_disjoint {a b : Nat} (hb : b &&& a = b) : (a ^^^ b) &&& b = 0 := by
  apply Nat.eq_of_testBit_eq
  intro i
  rw [Nat.testBit_and, Nat.testBit_xor, Nat.zero_testBit]
  cases hbi : b.testBit i
  · simp
  · simp [subset_testBit hb hbi]

theorem xor_subset_or {a b : Nat} (hb : b &&& a = b) : (a ^^^ b) ||| b = a := by
  apply Nat.eq_of_testBit_eq
  intro i
  rw [Nat.testBit_or, Nat.testBit_xor]
  cases hbi : b.testBit i
  · simp
  · simp [subset_testBit hb hbi]

theorem popcount_xor_subset (a b : Nat) (hb : b &&& a = b) :
    popcount a = popcount (a ^^^ b) + popcount b := by
  calc popcount a = popcount ((a ^^^ b) ||| b) := by rw [xor_subset_or hb]
  _ = popcount (a ^^^ b) + popcount b :=
    popcount_lor _ _ (xor_subset_disjoint hb)

theorem popcount_two_pow (k : Nat) (hk : k < 64) : popcount (2 ^ k) = 1 := by
  rw [popcount]
  have hf : (Finset.range 64).filter (fun i => (2 ^ k).testBit i) = {k} := by
    apply Finset.ext
    intro i
    simp only [Finset.mem_filter, Finset.mem_range, Finset.mem_singleton,
      Nat.testBit_two_pow]
    constructor
    · rintro ⟨_, h⟩
      exact (of_decide_eq_true h).symm
    · rintro rfl
      exact ⟨hk, by simp⟩
  rw [hf, Finset.card_singleton]

theorem popcount_eq_zero (x : Nat) (hx : x < 2 ^ 64) : popcount x = 0 ↔ x = 0 := by
  constructor
  · intro h
    rw [popcount, Finset.card_eq_zero, Finset.filter_eq_empty_iff] at h
    apply Nat.eq_of_testBit_eq
    intro i
    rw [Nat.zero_testBit]
    by_cases hi : i < 64
    · have := h (Finset.mem_range.mpr hi)
      simpa using this
    · exact testBit_false_of_ge hx (le_of_not_lt hi)
  · intro h
    subst h
    simp [popcount]

theorem popcount_pos_of_testBit {x i : Nat} (h : x.testBit i = true) (hi : i < 64) :
    0 < popcount x := by
  rw [popcount, Finset.card_pos]
  exact ⟨i, Finset.mem_filter.mpr ⟨Finset.mem_range.mpr hi, h⟩⟩

theorem xor_disjoint_or {a b : Nat} (hd : a &&& b = 0) : a ^^^ b = a ||| b := by
  apply Nat.eq_of_testBit_eq
  intro i
  have hdi : (a &&& b).testBit i = false := by rw [hd, Nat.zero_testBit]
  rw [Nat.testBit_and] at hdi
  rw [Nat.testBit_xor, Nat.testBit_or]
  cases hai : a.testBit i <;> cases hbi : b.testBit i <;>
    simp [hai, hbi] at hdi ⊢

/-! ### The endgame solver (`csolver.c`) -/

/-- The `move` record of `csolver.h`. -/
structure Move where
  x : Int
  y : Int
  score : Int
deriving DecidableEq

/-- The `evaluate` function of `csolver.c` (production scoring):
`popcount(player) - popcount(opp)`. -/
def evaluate (player opp : Nat) : Int :=
  (popcount player : Int) - (popcount opp : Int)

/-- The `mobility` function of `csolver.c`. -/
def mobility (player opp : Nat) : Nat :=
  popcount (c_find_moves player opp)

/-- The `move_index` function of `csolver.c`: count of trailing zero bits.
The C loop does not terminate on input `0`; it is only ever called on nonzero
singletons, and the model returns `0` there. -/
def move_index (bitboard : Nat) : Nat :=
  if bitboard % 2 = 1 then 0
  else if h : bitboard = 0 then 0
  else 1 + move_index (bitboard / 2)
termination_by bitboard
decreasing_by exact Nat.div_lt_self (Nat.pos_of_ne_zero h) one_lt_two

/-- The post-move boards computed by every solver loop in `csolver.c`:
`player_board = (player ^ new_disks) | new_move`,
`opp_board = opp ^ new_disks`. -/
def child_boards (player opp new_move : Nat) : Nat × Nat :=
  let new_disks := c_resolve_move player opp new_move
  ((player ^^^ new_disks) ||| new_move, opp ^^^ new_disks)

/-- The alpha-beta child loop of `negamax` in `csolver.c`; `rec` is the
recursive call one level down (with `passed = false` baked in). -/
def abLoop (rec : Nat → Nat → Int → Int → Int) :
    List (Nat × Nat) → Int → Int → Int → Int
  | [], _, _, maxScore => maxScore
  | (pb, ob) :: rest, alpha, beta, maxScore =>
    let score := - rec ob pb (-beta) (-alpha)
    if score > maxScore then
      if score > alpha then
        if score ≥ beta then score
        else abLoop rec rest score beta score
      else abLoop rec rest alpha beta score
    else abLoop rec rest alpha beta maxScore

/-- The `negamax` function of `csolver.c`, with a fuel parameter standing for
the C call stack.  One unit of fuel is consumed per recursive call; the C
recursion depth is bounded by `2 * empties + 1 ≤ 129` (each move fills an
empty square and passes never repeat), so any fuel ≥ 130 gives the exact C
semantics from `c_solve_game`.  At fuel `0` the model returns `evaluate`. -/
def negamax : Nat → Nat → Nat → Int → Int → Bool → Int
  | 0, player, opp, _, _, _ => evaluate player opp
  | fuel + 1, player, opp, alpha, beta, passed =>
    let moves := c_find_moves player opp
    if moves = 0 then
      if passed then evaluate player opp
      else - negamax fuel opp player (-beta) (-alpha) true
    else
      abLoop (fun p o a b => negamax fuel p o a b false)
        ((extractList moves).map (fun nm => child_boards player opp nm))
        alpha beta (-999)

/-- The inner argmin loop of `negamax_fastest_first`: index of the first
entry strictly below the running minimum, which starts at the sentinel
`MAX_MOVES + 1 = 33` (`best_index = -1` is modelled as `none`). -/
def selIdx : List Nat → Nat → Nat → Option Nat → Option Nat
  | [], _, _, best => best
  | mob :: rest, j, bestMob, best =>
    if mob < bestMob then selIdx rest (j + 1) mob (some j)
    else selIdx rest (j + 1) bestMob best

/-- One scan of the `opp_mobilities` array, as in `csolver.c`. -/
def pickIdx (mobs : List Nat) : Option Nat := selIdx mobs 0 33 none

/-- The fastest-first child loop of `negamax_fastest_first` in `csolver.c`.
When every remaining mobility is ≥ 33 the C code indexes the arrays with
`best_index = -1`, which is undefined behaviour; the model selects index `0`
in that corner. -/
def nffLoop (rec : Nat → Nat → Int → Int → Int) (entries : List (Nat × Nat)) :
    Nat → List Nat → Int → Int → Int → Int
  | 0, _, _, _, maxScore => maxScore
  | i + 1, mobs, alpha, beta, maxScore =>
    let idx := (pickIdx mobs).getD 0
    let mobs2 := mobs.set idx 33
    let pb := (entries.getD idx (0, 0)).1
    let ob := (entries.getD idx (0, 0)).2
    let score := - rec ob pb (-beta) (-alpha)
    if score > maxScore then
      if score > alpha then
        if score ≥ beta then score
        else nffLoop rec entries i mobs2 score beta score
      else nffLoop rec entries i mobs2 alpha beta score
    else nffLoop rec entries i mobs2 alpha beta maxScore

/-- The `negamax_fastest_first` function of `csolver.c` (fuel convention as in
`negamax`; `FASTEST_FIRST_CUTOFF = 5`). -/
def negamax_fastest_first : Nat → Nat → Nat → Int → Int → Bool → Int → Int
  | 0, player, opp, _, _, _, _ => evaluate player opp
  | fuel + 1, player, opp, alpha, beta, passed, depth =>
    if depth < 5 then negamax (fuel + 1) player opp alpha beta passed
    else
      let moves := c_find_moves player opp
      if moves = 0 then
        if passed then evaluate player opp
        else - negamax_fastest_first fuel opp player (-beta) (-alpha) true depth
      else
        let entries := (extractList moves).map (fun nm => child_boards player opp nm)
        let mobs := entries.map (fun e => mobility e.2 e.1)
        nffLoop (fun p o a b => negamax_fastest_first fuel p o a b false (depth - 1))
          entries entries.length mobs alpha beta (-999)

/-- The root loop of `c_solve_game` in `csolver.c`, tracking the best score
and the linear index of the best move (`-1` when none). -/
def solveLoop (rec : Nat → Nat → Int) (player opp : Nat) :
    List Nat → Int → Int → Int × Int
  | [], maxScore, index => (maxScore, index)
  | new_move :: rest, maxScore, index =>
    let pb := (child_boards player opp new_move).1
    let ob := (child_boards player opp new_move).2
    let score := - rec ob pb
    if score > maxScore then
      solveLoop rec player opp rest score (move_index new_move : Int)
    else
      solveLoop rec player opp rest maxScore index

/-- Fuel for the solver recursion; the C recursion depth is bounded by
`2 * 64 + 1` (each move adds a disk and passes never repeat). -/
def solveFuel : Nat := 130

/-- `INITIAL_BOUND` of `csolver.c` in the production configuration
(`BENCHMARK` disabled). -/
def INITIAL_BOUND : Int := 1

/-- The `c_solve_game` entry point of `csolver.c`. -/
def c_solve_game (player opp : Nat) : Move :=
  let depth : Int := 64 - (popcount player : Int) - (popcount opp : Int)
  let moves := c_find_moves player opp
  let result :=
    solveLoop
      (fun p o =>
        negamax_fastest_first solveFuel p o (-INITIAL_BOUND) INITIAL_BOUND false depth)
      player opp (extractList moves) (-999) (-1)
  if result.2 < 0 then { x := -1, y := -1, score := 999 }
  else { x := result.2 % 8, y := result.2 / 8, score := result.1 }

/-! ### The rollout engine (`mcts_utils.pyx`) -/

/-- The `Rollout_Result` enum of `mcts_utils.pyx`. -/
inductive Rollout_Result where
  | ACTIVE
  | OPPONENT
  | DRAW
deriving DecidableEq

/-- Modelled from the spec: `select_bit` is declared in `cbitboard.h` and used
by `random_select` in `mcts_utils.pyx`, but its C definition is not among the
source files.  Spec §4.1: return the 1-based bit position (position 1 = LSB)
of the `rank`-th set bit of `b`, for `rank ∈ [1, popcount b]`. -/
def select_bit (b : Nat) (rank : Nat) : Nat :=
  if h : b = 0 then 0
  else if b % 2 = 1 then
    if rank ≤ 1 then 1
    else 1 + select_bit (b / 2) (rank - 1)
  else 1 + select_bit (b / 2) rank
termination_by b
decreasing_by
  all_goals exact Nat.div_lt_self (Nat.pos_of_ne_zero h) one_lt_two

/-- The `random_select` function of `mcts_utils.pyx`; `r` models the `rand()`
draw of this iteration. -/
def random_select (r : Nat) (bitboard : Nat) : Nat :=
  let n_moves := popcount bitboard
  let loc_idx := r % n_moves
  let move_loc := select_bit bitboard (loc_idx + 1)
  1 <<< (move_loc - 1)

/-- The `while` loop of `_random_rollout` in `mcts_utils.pyx`.  `rng t` models
the `t`-th `rand()` draw.  The loop state returned at exit is
`(same_player, active, other)`; `none` models fuel exhaustion (the C loop has
no built-in bound; fuel `131` is shown sufficient below). -/
def rolloutLoop (rng : Nat → Nat) :
    Nat → Nat → Bool → Bool → Nat → Nat → Option (Bool × Nat × Nat)
  | 0, _, _, _, _, _ => none
  | fuel + 1, t, same_player, just_passed, active, other =>
    let moves := c_find_moves active other
    if moves = 0 then
      if just_passed then some (same_player, active, other)
      else rolloutLoop rng fuel t (!same_player) true other active
    else
      let new_move := random_select (rng t) moves
      let new_disks := c_resolve_move active other new_move
      let active2 := (active ^^^ new_disks) ||| new_move
      let other2 := other ^^^ new_disks
      rolloutLoop rng fuel (t + 1) (!same_player) false other2 active2

/-- The `_random_rollout` function of `mcts_utils.pyx`, over an explicit
random stream. -/
def _random_rollout (rng : Nat → Nat) (active_bitboard other_bitboard : Nat) :
    Option Rollout_Result :=
  (rolloutLoop rng 131 0 true false active_bitboard other_bitboard).map
    (fun s =>
      let score : Int := (popcount s.2.1 : Int) - (popcount s.2.2 : Int)
      if score = 0 then Rollout_Result.DRAW
      else if decide (score > 0) = s.1 then Rollout_Result.ACTIVE
      else Rollout_Result.OPPONENT)

/-! ### The boundary adapters (`bitboard.pyx`, `solver.pyx`) -/

/-- The `_serialize` function of `bitboard.pyx`: pack an 8×8 boolean matrix
row-major with the top-left cell in the most significant bit
(`np.packbits(arr, bitorder='big')` followed by big-endian
`int.from_bytes`). -/
def _serialize (arr : Fin 8 → Fin 8 → Bool) : Nat :=
  ∑ j : Fin 64,
    if arr ⟨j.val / 8, by have := j.isLt; omega⟩ ⟨j.val % 8, by omega⟩
    then 2 ^ (63 - j.val) else 0

/-- The `_deserialize` function of `bitboard.pyx`: big-endian `to_bytes`,
`np.unpackbits`, reshape to 8×8. -/
def _deserialize (serialized : Nat) : Fin 8 → Fin 8 → Bool :=
  fun y x => serialized.testBit (63 - (8 * y.val + x.val))

/-- The `solve_game` wrapper of `solver.pyx`: serialize both boards, call the
C solver, and apply the external coordinate reversal `(7 - x, 7 - y)`. -/
def solve_game (player opp : Fin 8 → Fin 8 → Bool) : Int × Int × Int :=
  let m := c_solve_game (_serialize player) (_serialize opp)
  (7 - m.x, 7 - m.y, m.score)

/-! ### C2: the one-step shifts wrap across the row boundary -/

/-- C2: the claim states `east_one(b) = (b << 1) & 0xFEFEFEFEFEFEFEFE` and
`west_one(b) = (b >> 1) & 0x7F7F7F7F7F7F7F7F` (shift-then-mask, which never
wraps a bit across the row-byte boundary).  The code instead masks before
shifting (`gen &= _notAFile; return gen << 1`), which does wrap: on
`b = 0x80` (bit 7) the code's `east_one` returns `0x100` (bit 8, the next
row-byte), while the claimed no-wraparound form returns `0`; on `b = 0x100`
the code's `west_one` returns `0x80`, while the claimed form returns `0`. -/
theorem C2_shift_mask_order :
    east_one 0x80 = 0x100 ∧ ((0x80 <<< 1) &&& 0xfefefefefefefefe : Nat) = 0 ∧
    west_one 0x100 = 0x80 ∧ ((0x100 >>> 1) &&& 0x7f7f7f7f7f7f7f7f : Nat) = 0 ∧
    east_one 0x80 ≠ ((0x80 <<< 1) &&& 0xfefefefefefefefe : Nat) ∧
    west_one 0x100 ≠ ((0x100 >>> 1) &&& 0x7f7f7f7f7f7f7f7f : Nat) := by
  refine ⟨by decide, by decide, by decide, by decide, by decide, by decide⟩

/-! ### Occluded-fill lemmas -/

theorem occlL_lt (s gen pro : Nat) (hg : gen < 2 ^ 64) : occlL s gen pro < 2 ^ 64 := by
  simp only [occlL]
  have h1 : gen ||| (pro &&& shl gen s) < 2 ^ 64 :=
    Nat.or_lt_two_pow hg (Nat.and_lt_two_pow _ (shl_lt _ _))
  have h2 : gen ||| (pro &&& shl gen s) |||
      (pro &&& shl pro s &&& shl (gen ||| (pro &&& shl gen s)) (2 * s)) < 2 ^ 64 :=
    Nat.or_lt_two_pow h1 (Nat.and_lt_two_pow _ (shl_lt _ _))
  exact Nat.or_lt_two_pow h2 (Nat.and_lt_two_pow _ (shl_lt _ _))

theorem shiftRight_le_self (x n : Nat) : x >>> n ≤ x := by
  rw [Nat.shiftRight_eq_div_pow]
  exact Nat.div_le_self _ _

theorem occlR_lt (s gen pro : Nat) (hg : gen < 2 ^ 64) : occlR s gen pro < 2 ^ 64 := by
  simp only [occlR]
  have h1 : gen ||| (pro &&& (gen >>> s)) < 2 ^ 64 :=
    Nat.or_lt_two_pow hg
      (Nat.and_lt_two_pow _ (lt_of_le_of_lt (shiftRight_le_self _ _) hg))
  have h2 : gen ||| (pro &&& (gen >>> s)) |||
      (pro &&& (pro >>> s) &&&
        ((gen ||| (pro &&& (gen >>> s))) >>> (2 * s))) < 2 ^ 64 :=
    Nat.or_lt_two_pow h1
      (Nat.and_lt_two_pow _ (lt_of_le_of_lt (shiftRight_le_self _ _) h1))
  exact Nat.or_lt_two_pow h2
    (Nat.and_lt_two_pow _ (lt_of_le_of_lt (shiftRight_le_self _ _) h2))

theorem occlL_subset {s gen pro i : Nat} (h : (occlL s gen pro).testBit i = true) :
    gen.testBit i = true ∨ pro.testBit i = true := by
  simp only [occlL, Nat.testBit_or, Nat.testBit_and, Bool.or_eq_true,
    Bool.and_eq_true] at h
  tauto

theorem occlR_subset {s gen pro i : Nat} (h : (occlR s gen pro).testBit i = true) :
    gen.testBit i = true ∨ pro.testBit i = true := by
  simp only [occlR, Nat.testBit_or, Nat.testBit_and, Bool.or_eq_true,
    Bool.and_eq_true] at h
  tauto

theorem occlL_step1 (s q : Nat) (pro : Nat) (hq : q + s < 64)
    (hp : pro.testBit (q + s) = true) :
    (occlL s (2 ^ q) pro).testBit (q + s) = true := by
  have hshl : (shl (2 ^ q) s).testBit (q + s) = true := by
    rw [shl_testBit]
    have h1 : q + s - s = q := by omega
    simp [hq, h1, Nat.testBit_two_pow_self]
  simp only [occlL, Nat.testBit_or, Nat.testBit_and]
  rw [hp, hshl]
  simp

theorem occlR_step1 (s q : Nat) (pro : Nat) (hs : s ≤ q)
    (hp : pro.testBit (q - s) = true) :
    (occlR s (2 ^ q) pro).testBit (q - s) = true := by
  have hshr : ((2 ^ q) >>> s).testBit (q - s) = true := by
    rw [Nat.testBit_shiftRight]
    have h1 : s + (q - s) = q := by omega
    rw [h1]
    exact Nat.testBit_two_pow_self
  simp only [occlR, Nat.testBit_or, Nat.testBit_and]
  rw [hp, hshr]
  simp

/-! ### File-mask bit patterns -/

theorem notAFile_testBit : ∀ i, i < 64 → notAFile.testBit i = decide (i % 8 ≠ 0) := by
  decide

theorem notHFile_testBit : ∀ i, i < 64 → notHFile.testBit i = decide (i % 8 ≠ 7) := by
  decide

theorem compl64_testBit_true {x q : Nat} (hx : x < 2 ^ 64)
    (h : (compl64 x).testBit q = true) : x.testBit q = false ∧ q < 64 := by
  by_cases hq : q < 64
  · rw [compl64_testBit_lt _ _ hq] at h
    exact ⟨by simpa using h, hq⟩
  · rw [compl64_testBit, testBit_false_of_ge hx (le_of_not_lt hq)] at h
    simp [hq] at h

theorem soutOccl_lt (g p : Nat) (hg : g < 2 ^ 64) : soutOccl g p < 2 ^ 64 :=
  occlR_lt 8 g p hg

theorem nortOccl_lt (g p : Nat) (hg : g < 2 ^ 64) : nortOccl g p < 2 ^ 64 :=
  occlL_lt 8 g p hg

theorem eastOccl_lt (g p : Nat) (hg : g < 2 ^ 64) : eastOccl g p < 2 ^ 64 :=
  occlL_lt 1 g _ hg

theorem westOccl_lt (g p : Nat) (hg : g < 2 ^ 64) : westOccl g p < 2 ^ 64 :=
  occlR_lt 1 g _ hg

theorem soEaOccl_lt (g p : Nat) (hg : g < 2 ^ 64) : soEaOccl g p < 2 ^ 64 :=
  occlR_lt 7 g _ hg

theorem soWeOccl_lt (g p : Nat) (hg : g < 2 ^ 64) : soWeOccl g p < 2 ^ 64 :=
  occlR_lt 9 g _ hg

theorem noEaOccl_lt (g p : Nat) (hg : g < 2 ^ 64) : noEaOccl g p < 2 ^ 64 :=
  occlL_lt 9 g _ hg

theorem noWeOccl_lt (g p : Nat) (hg : g < 2 ^ 64) : noWeOccl g p < 2 ^ 64 :=
  occlL_lt 7 g _ hg

theorem singleton_and_eq_zero {x q : Nat} (h : x.testBit q = false) :
    2 ^ q &&& x = 0 := by
  apply Nat.eq_of_testBit_eq
  intro i
  rw [Nat.testBit_and, Nat.zero_testBit, Nat.testBit_two_pow]
  by_cases hiq : q = i
  · subst hiq
    simp [h]
  · simp [hiq]

/-- Part (a) of C3: every move bit is on an empty square. -/
theorem find_moves_on_empty {gen pro q : Nat} (hg : gen < 2 ^ 64) (hp : pro < 2 ^ 64)
    (hq : (c_find_moves gen pro).testBit q = true) :
    (gen ||| pro).testBit q = false ∧ q < 64 := by
  have hor : gen ||| pro < 2 ^ 64 := Nat.or_lt_two_pow hg hp
  simp only [c_find_moves, Nat.testBit_or, Nat.testBit_and, Bool.or_eq_true,
    Bool.and_eq_true] at hq
  rcases hq with (((((((h | h) | h) | h) | h) | h) | h) | h) <;>
    exact compl64_testBit_true hor h.2

/-- Part (b) of C3: playing a move bit flips at least one opposing disk. -/
theorem find_moves_flips {gen pro q : Nat} (hg : gen < 2 ^ 64) (hp : pro < 2 ^ 64)
    (hq : (c_find_moves gen pro).testBit q = true) :
    c_resolve_move gen pro (2 ^ q) ≠ 0 := by
  have hor : gen ||| pro < 2 ^ 64 := Nat.or_lt_two_pow hg hp
  simp only [c_find_moves, Nat.testBit_or, Nat.testBit_and, Bool.or_eq_true,
    Bool.and_eq_true, Nat.testBit_shiftRight, shl_testBit, decide_eq_true_eq] at hq
  rcases hq with (((((((h | h) | h) | h) | h) | h) | h) | h)
  · -- south fill: opp run above at q + 8
    obtain ⟨⟨hso, hpro⟩, _⟩ := h
    have hlt : 8 + q < 64 := lt_of_testBit_64 (soutOccl_lt gen pro hg) hso
    apply ne_zero_of_testBit (i := 8 + q)
    have hn : (nortOccl (2 ^ q) pro).testBit (8 + q) = true := by
      have := occlL_step1 8 q pro (by omega) (by rw [Nat.add_comm]; exact hpro)
      rwa [Nat.add_comm] at this
    have hterm : (soutOccl gen pro &&& nortOccl (2 ^ q) pro).testBit (8 + q) = true := by
      rw [Nat.testBit_and, hso, hn]
      rfl
    simp only [c_resolve_move, Nat.testBit_or, hterm, Bool.or_true, Bool.true_or]
  · -- north fill: opp run below at q - 8
    obtain ⟨⟨_, hge, hno, hpro⟩, _⟩ := h
    apply ne_zero_of_testBit (i := q - 8)
    have hn : (soutOccl (2 ^ q) pro).testBit (q - 8) = true :=
      occlR_step1 8 q pro hge hpro
    have hterm : (nortOccl gen pro &&& soutOccl (2 ^ q) pro).testBit (q - 8) = true := by
      rw [Nat.testBit_and, hno, hn]
      rfl
    simp only [c_resolve_move, Nat.testBit_or, hterm, Bool.or_true, Bool.true_or]
  · -- east fill: opp run at q - 1, file mask notA at q
    obtain ⟨⟨⟨hq64, hge, hea, hpro⟩, hmask⟩, _⟩ := h
    apply ne_zero_of_testBit (i := q - 1)
    have hm : q % 8 ≠ 0 := by
      have := notAFile_testBit q hq64
      rw [this] at hmask
      exact of_decide_eq_true hmask
    have hpm : (pro &&& notHFile).testBit (q - 1) = true := by
      rw [Nat.testBit_and, hpro, notHFile_testBit (q - 1) (by omega)]
      simp only [Bool.true_and, decide_eq_true_eq]
      omega
    have hn : (westOccl (2 ^ q) pro).testBit (q - 1) = true :=
      occlR_step1 1 q (pro &&& notHFile) hge hpm
    have hterm : (eastOccl gen pro &&& westOccl (2 ^ q) pro).testBit (q - 1) = true := by
      rw [Nat.testBit_and, hea, hn]
      rfl
    simp only [c_resolve_move, Nat.testBit_or, hterm, Bool.or_true, Bool.true_or]
  · -- west fill: opp run at q + 1, file mask notH at q
    obtain ⟨⟨⟨hwe, hpro⟩, hmask⟩, hemp⟩ := h
    have hq64 : q < 64 := (compl64_testBit_true hor hemp).2
    have hlt : 1 + q < 64 := lt_of_testBit_64 (westOccl_lt gen pro hg) hwe
    apply ne_zero_of_testBit (i := 1 + q)
    have hm : q % 8 ≠ 7 := by
      have := notHFile_testBit q hq64
      rw [this] at hmask
      exact of_decide_eq_true hmask
    have hpm : (pro &&& notAFile).testBit (1 + q) = true := by
      rw [Nat.testBit_and, hpro, notAFile_testBit (1 + q) (by omega)]
      simp only [Bool.true_and, decide_eq_true_eq]
      omega
    have hn : (eastOccl (2 ^ q) pro).testBit (1 + q) = true := by
      have := occlL_step1 1 q (pro &&& notAFile) (by omega)
        (by rw [Nat.add_comm]; exact hpm)
      rwa [Nat.add_comm] at this
    have hterm : (westOccl gen pro &&& eastOccl (2 ^ q) pro).testBit (1 + q) = true := by
      rw [Nat.testBit_and, hwe, hn]
      rfl
    simp only [c_resolve_move, Nat.testBit_or, hterm, Bool.or_true, Bool.true_or]
  · -- south-east fill: opp run at q + 7, file mask notA at q
    obtain ⟨⟨⟨hse, hpro⟩, hmask⟩, hemp⟩ := h
    have hq64 : q < 64 := (compl64_testBit_true hor hemp).2
    have hlt : 7 + q < 64 := lt_of_testBit_64 (soEaOccl_lt gen pro hg) hse
    apply ne_zero_of_testBit (i := 7 + q)
    have hm : q % 8 ≠ 0 := by
      have := notAFile_testBit q hq64
      rw [this] at hmask
      exact of_decide_eq_true hmask
    have hpm : (pro &&& notHFile).testBit (7 + q) = true := by
      rw [Nat.testBit_and, hpro, notHFile_testBit (7 + q) (by omega)]
      simp only [Bool.true_and, decide_eq_true_eq]
      omega
    have hn : (noWeOccl (2 ^ q) pro).testBit (7 + q) = true := by
      have := occlL_step1 7 q (pro &&& notHFile) (by omega)
        (by rw [Nat.add_comm]; exact hpm)
      rwa [Nat.add_comm] at this
    have hterm : (soEaOccl gen pro &&& noWeOccl (2 ^ q) pro).testBit (7 + q) = true := by
      rw [Nat.testBit_and, hse, hn]
      rfl
    simp only [c_resolve_move, Nat.testBit_or, hterm, Bool.or_true, Bool.true_or]
  · -- south-west fill: opp run at q + 9, file mask notH at q
    obtain ⟨⟨⟨hsw, hpro⟩, hmask⟩, hemp⟩ := h
    have hq64 : q < 64 := (compl64_testBit_true hor hemp).2
    have hlt : 9 + q < 64 := lt_of_testBit_64 (soWeOccl_lt gen pro hg) hsw
    apply ne_zero_of_testBit (i := 9 + q)
    have hm : q % 8 ≠ 7 := by
      have := notHFile_testBit q hq64
      rw [this] at hmask
      exact of_decide_eq_true hmask
    have hpm : (pro &&& notAFile).testBit (9 + q) = true := by
      rw [Nat.testBit_and, hpro, notAFile_testBit (9 + q) (by omega)]
      simp only [Bool.true_and, decide_eq_true_eq]
      omega
    have hn : (noEaOccl (2 ^ q) pro).testBit (9 + q) = true := by
      have := occlL_step1 9 q (pro &&& notAFile) (by omega)
        (by rw [Nat.add_comm]; exact hpm)
      rwa [Nat.add_comm] at this
    have hterm : (soWeOccl gen pro &&& noEaOccl (2 ^ q) pro).testBit (9 + q) = true := by
      rw [Nat.testBit_and, hsw, hn]
      rfl
    simp only [c_resolve_move, Nat.testBit_or, hterm, Bool.or_true, Bool.true_or]
  · -- north-east fill: opp run at q - 9, file mask notA at q
    obtain ⟨⟨⟨hq64, hge, hne, hpro⟩, hmask⟩, _⟩ := h
    apply ne_zero_of_testBit (i := q - 9)
    have hm : q % 8 ≠ 0 := by
      have := notAFile_testBit q hq64
      rw [this] at hmask
      exact of_decide_eq_true hmask
    have hpm : (pro &&& notHFile).testBit (q - 9) = true := by
      rw [Nat.testBit_and, hpro, notHFile_testBit (q - 9) (by omega)]
      simp only [Bool.true_and, decide_eq_true_eq]
      omega
    have hn : (soWeOccl (2 ^ q) pro).testBit (q - 9) = true :=
      occlR_step1 9 q (pro &&& notHFile) hge hpm
    have hterm : (noEaOccl gen pro &&& soWeOccl (2 ^ q) pro).testBit (q - 9) = true := by
      rw [Nat.testBit_and, hne, hn]
      rfl
    simp only [c_resolve_move, Nat.testBit_or, hterm, Bool.or_true, Bool.true_or]
  · -- north-west fill: opp run at q - 7, file mask notH at q
    obtain ⟨⟨⟨hq64, hge, hnw, hpro⟩, hmask⟩, _⟩ := h
    apply ne_zero_of_testBit (i := q - 7)
    have hm : q % 8 ≠ 7 := by
      have := notHFile_testBit q hq64
      rw [this] at hmask
      exact of_decide_eq_true hmask
    have hpm : (pro &&& notAFile).testBit (q - 7) = true := by
      rw [Nat.testBit_and, hpro, notAFile_testBit (q - 7) (by omega)]
      simp only [Bool.true_and, decide_eq_true_eq]
      omega
    have hn : (soEaOccl (2 ^ q) pro).testBit (q - 7) = true :=
      occlR_step1 7 q (pro &&& notAFile) hge hpm
    have hterm : (noWeOccl gen pro &&& soEaOccl (2 ^ q) pro).testBit (q - 7) = true := by
      rw [Nat.testBit_and, hnw, hn]
      rfl
    simp only [c_resolve_move, Nat.testBit_or, hterm, Bool.or_true, Bool.true_or]

/-! ### Flip mask facts: C4 and C5 -/

theorem and_testBit_left {a b i : Nat} (h : (a &&& b).testBit i = true) :
    a.testBit i = true := by
  rw [Nat.testBit_and, Bool.and_eq_true] at h
  exact h.1

theorem flips_case {player opp q i : Nat} (hqp : player.testBit q = false)
    (hx : player.testBit i = true ∨ opp.testBit i = true)
    (hy : (2 ^ q).testBit i = true ∨ opp.testBit i = true) :
    opp.testBit i = true := by
  rcases hx with hx | hx
  · rcases hy with hy | hy
    · rw [Nat.testBit_two_pow] at hy
      have hqi : q = i := of_decide_eq_true hy
      subst hqi
      rw [hx] at hqp
      cases hqp
    · exact hy
  · exact hx

/-- The flip mask only ever contains opposing disks (for a move played on an
empty square). -/
theorem flips_subset {player opp q : Nat} (hq : (player ||| opp).testBit q = false)
    (i : Nat) (hi : (c_resolve_move player opp (2 ^ q)).testBit i = true) :
    opp.testBit i = true := by
  have hqp : player.testBit q = false := by
    rw [Nat.testBit_or] at hq
    exact (Bool.or_eq_false_iff.mp hq).1
  simp only [c_resolve_move, Nat.testBit_or, Bool.or_eq_true, Nat.testBit_and,
    Bool.and_eq_true] at hi
  rcases hi with (((((((⟨hx, hy⟩ | ⟨hx, hy⟩) | ⟨hx, hy⟩) | ⟨hx, hy⟩) | ⟨hx, hy⟩) |
    ⟨hx, hy⟩) | ⟨hx, hy⟩) | ⟨hx, hy⟩)
  · exact flips_case hqp (occlR_subset hx) (occlL_subset hy)
  · exact flips_case hqp (occlL_subset hx) (occlR_subset hy)
  · exact flips_case hqp ((occlL_subset hx).imp_right and_testBit_left)
      ((occlR_subset hy).imp_right and_testBit_left)
  · exact flips_case hqp ((occlR_subset hx).imp_right and_testBit_left)
      ((occlL_subset hy).imp_right and_testBit_left)
  · exact flips_case hqp ((occlR_subset hx).imp_right and_testBit_left)
      ((occlL_subset hy).imp_right and_testBit_left)
  · exact flips_case hqp ((occlL_subset hx).imp_right and_testBit_left)
      ((occlR_subset hy).imp_right and_testBit_left)
  · exact flips_case hqp ((occlR_subset hx).imp_right and_testBit_left)
      ((occlL_subset hy).imp_right and_testBit_left)
  · exact flips_case hqp ((occlL_subset hx).imp_right and_testBit_left)
      ((occlR_subset hy).imp_right and_testBit_left)

/-- Disjointness of the post-move boards. -/
theorem post_disjoint {player opp q : Nat} (hd : player &&& opp = 0)
    (hq : (player ||| opp).testBit q = false) :
    ((player ^^^ c_resolve_move player opp (2 ^ q)) ||| 2 ^ q) &&&
      (opp ^^^ c_resolve_move player opp (2 ^ q)) = 0 := by
  apply Nat.eq_of_testBit_eq
  intro i
  rw [Nat.zero_testBit, Nat.testBit_and, Nat.testBit_or, Nat.testBit_xor,
    Nat.testBit_xor, Nat.testBit_two_pow]
  have hdis : ∀ j, player.testBit j = true → opp.testBit j = true → False := by
    intro j hj1 hj2
    have := congrArg (fun z => z.testBit j) hd
    simp [Nat.testBit_and, hj1, hj2] at this
  by_cases hiq : q = i
  · subst hiq
    have hop : opp.testBit q = false := by
      rw [Nat.testBit_or] at hq
      exact (Bool.or_eq_false_iff.mp hq).2
    have hfq : (c_resolve_move player opp (2 ^ q)).testBit q = false := by
      cases hfq : (c_resolve_move player opp (2 ^ q)).testBit q
      · rfl
      · exact absurd (flips_subset hq q hfq) (by simp [hop])
    simp [hfq, hop]
  · have hqd : decide (q = i) = false := by simp [hiq]
    rw [hqd]
    cases hfi : (c_resolve_move player opp (2 ^ q)).testBit i
    · cases hpi : player.testBit i
      · simp
      · cases hoi : opp.testBit i
        · simp
        · exact (hdis i hpi hoi).elim
    · have hoi : opp.testBit i = true := flips_subset hq i hfi
      simp [hoi]

/-- Conservation of disks: the move adds exactly one disk. -/
theorem post_popcount {player opp q : Nat} (hd : player &&& opp = 0)
    (hq : (player ||| opp).testBit q = false) (hq64 : q < 64) :
    popcount ((player ^^^ c_resolve_move player opp (2 ^ q)) ||| 2 ^ q) +
      popcount (opp ^^^ c_resolve_move player opp (2 ^ q)) =
      popcount player + popcount opp + 1 := by
  have hqp : player.testBit q = false := by
    rw [Nat.testBit_or] at hq
    exact (Bool.or_eq_false_iff.mp hq).1
  have hqo : opp.testBit q = false := by
    rw [Nat.testBit_or] at hq
    exact (Bool.or_eq_false_iff.mp hq).2
  have hdis : ∀ j, player.testBit j = true → opp.testBit j = true → False := by
    intro j hj1 hj2
    have := congrArg (fun z => z.testBit j) hd
    simp [Nat.testBit_and, hj1, hj2] at this
  have hsubf : c_resolve_move player opp (2 ^ q) &&& opp =
      c_resolve_move player opp (2 ^ q) := by
    apply Nat.eq_of_testBit_eq
    intro i
    rw [Nat.testBit_and]
    cases hfi : (c_resolve_move player opp (2 ^ q)).testBit i
    · simp
    · simp [flips_subset hq i hfi]
  have hpf : player &&& c_resolve_move player opp (2 ^ q) = 0 := by
    apply Nat.eq_of_testBit_eq
    intro i
    rw [Nat.testBit_and, Nat.zero_testBit]
    cases hfi : (c_resolve_move player opp (2 ^ q)).testBit i
    · simp
    · cases hpi : player.testBit i
      · simp
      · exact (hdis i hpi (flips_subset hq i hfi)).elim
  have hxor : player ^^^ c_resolve_move player opp (2 ^ q) =
      player ||| c_resolve_move player opp (2 ^ q) := xor_disjoint_or hpf
  have hsing : (player ||| c_resolve_move player opp (2 ^ q)) &&& 2 ^ q = 0 := by
    rw [Nat.and_comm]
    apply singleton_and_eq_zero
    rw [Nat.testBit_or]
    have hfq : (c_resolve_move player opp (2 ^ q)).testBit q = false := by
      cases hfq : (c_resolve_move player opp (2 ^ q)).testBit q
      · rfl
      · exact absurd (flips_subset hq q hfq) (by simp [hqo])
    simp [hqp, hfq]
  have h1 : popcount ((player ^^^ c_resolve_move player opp (2 ^ q)) ||| 2 ^ q) =
      popcount player + popcount (c_resolve_move player opp (2 ^ q)) + 1 := by
    rw [hxor, popcount_lor _ _ hsing, popcount_lor _ _ hpf, popcount_two_pow q hq64]
  have h2 : popcount opp = popcount (opp ^^^ c_resolve_move player opp (2 ^ q)) +
      popcount (c_resolve_move player opp (2 ^ q)) :=
    popcount_xor_subset opp _ hsubf
  omega

/-! ### Claim theorems C3, C4, C5 -/

/-- C3: for disjoint boards, every set bit `q` of `c_find_moves(player, opp)`
lies on an empty square (`2^q & (player | opp) = 0`) and playing it flips at
least one disk (`c_resolve_move(player, opp, 2^q) ≠ 0`). -/
theorem C3_moves_legal (player opp : Nat) (hp : player < 2 ^ 64)
    (ho : opp < 2 ^ 64) (_hd : player &&& opp = 0) (q : Nat)
    (hq : (c_find_moves player opp).testBit q = true) :
    2 ^ q &&& (player ||| opp) = 0 ∧ c_resolve_move player opp (2 ^ q) ≠ 0 :=
  ⟨singleton_and_eq_zero (find_moves_on_empty hp ho hq).1,
    find_moves_flips hp ho hq⟩

theorem C3_moves_legal_wit :
    ((0x0000000810000000 : Nat) < 2 ^ 64 ∧ (0x0000001008000000 : Nat) < 2 ^ 64 ∧
      (0x0000000810000000 : Nat) &&& 0x0000001008000000 = 0 ∧
      (c_find_moves 0x0000000810000000 0x0000001008000000).testBit 26 = true) ∧
    (2 ^ 26 &&& ((0x0000000810000000 : Nat) ||| 0x0000001008000000) = 0 ∧
      c_resolve_move 0x0000000810000000 0x0000001008000000 (2 ^ 26) ≠ 0) :=
  ⟨⟨by decide, by decide, by decide, by decide⟩,
    C3_moves_legal 0x0000000810000000 0x0000001008000000 (by decide) (by decide)
      (by decide) 26 (by decide)⟩

/-- C4: for disjoint boards and a legal move bit `q`, the post-move boards
`player' = (player ^ flipped) | 2^q` and `opp' = opp ^ flipped` (with
`flipped = c_resolve_move(player, opp, 2^q)`) are disjoint. -/
theorem C4_post_disjoint (player opp : Nat) (hp : player < 2 ^ 64)
    (ho : opp < 2 ^ 64) (hd : player &&& opp = 0) (q : Nat)
    (hq : (c_find_moves player opp).testBit q = true) :
    ((player ^^^ c_resolve_move player opp (2 ^ q)) ||| 2 ^ q) &&&
      (opp ^^^ c_resolve_move player opp (2 ^ q)) = 0 :=
  post_disjoint hd (find_moves_on_empty hp ho hq).1

theorem C4_post_disjoint_wit :
    ((0x0000000810000000 : Nat) < 2 ^ 64 ∧ (0x0000001008000000 : Nat) < 2 ^ 64 ∧
      (0x0000000810000000 : Nat) &&& 0x0000001008000000 = 0 ∧
      (c_find_moves 0x0000000810000000 0x0000001008000000).testBit 19 = true) ∧
    ((0x0000000810000000 ^^^
        c_resolve_move 0x0000000810000000 0x0000001008000000 (2 ^ 19)) ||| 2 ^ 19) &&&
      (0x0000001008000000 ^^^
        c_resolve_move 0x0000000810000000 0x0000001008000000 (2 ^ 19)) = 0 :=
  ⟨⟨by decide, by decide, by decide, by decide⟩,
    C4_post_disjoint 0x0000000810000000 0x0000001008000000 (by decide) (by decide)
      (by decide) 19 (by decide)⟩

/-- C5: for disjoint boards and a legal move bit `q`, exactly one disk is
added: `popcount(player') + popcount(opp') = popcount(player) + popcount(opp)
+ 1`. -/
theorem C5_conservation (player opp : Nat) (hp : player < 2 ^ 64)
    (ho : opp < 2 ^ 64) (hd : player &&& opp = 0) (q : Nat)
    (hq : (c_find_moves player opp).testBit q = true) :
    popcount ((player ^^^ c_resolve_move player opp (2 ^ q)) ||| 2 ^ q) +
      popcount (opp ^^^ c_resolve_move player opp (2 ^ q)) =
      popcount player + popcount opp + 1 := by
  obtain ⟨hempty, hq64⟩ := find_moves_on_empty hp ho hq
  exact post_popcount hd hempty hq64

theorem C5_conservation_wit :
    ((0x0000000810000000 : Nat) < 2 ^ 64 ∧ (0x0000001008000000 : Nat) < 2 ^ 64 ∧
      (0x0000000810000000 : Nat) &&& 0x0000001008000000 = 0 ∧
      (c_find_moves 0x0000000810000000 0x0000001008000000).testBit 37 = true) ∧
    popcount ((0x0000000810000000 ^^^
        c_resolve_move 0x0000000810000000 0x0000001008000000 (2 ^ 37)) ||| 2 ^ 37) +
      popcount (0x0000001008000000 ^^^
        c_resolve_move 0x0000000810000000 0x0000001008000000 (2 ^ 37)) =
      popcount 0x0000000810000000 + popcount 0x0000001008000000 + 1 :=
  ⟨⟨by decide, by decide, by decide, by decide⟩,
    C5_conservation 0x0000000810000000 0x0000001008000000 (by decide) (by decide)
      (by decide) 37 (by decide)⟩

/-! ### C8: mobility bounds -/

theorem popcount_add_compl64 (x : Nat) : popcount x + popcount (compl64 x) = 64 := by
  rw [popcount_eq_sum x, popcount_eq_sum (compl64 x), ← Finset.sum_add_distrib]
  have hterm : ∀ i ∈ Finset.range 64,
      ((if x.testBit i then 1 else 0) + (if (compl64 x).testBit i then 1 else 0)) = 1 := by
    intro i hi
    rw [compl64_testBit_lt x i (Finset.mem_range.mp hi)]
    cases x.testBit i <;> simp
  rw [Finset.sum_congr rfl hterm]
  simp

theorem popcount_le_subset {a b : Nat} (hb : b &&& a = b) : popcount b ≤ popcount a := by
  rw [popcount_xor_subset a b hb]
  omega

theorem find_moves_subset_empty {gen pro : Nat} (hg : gen < 2 ^ 64)
    (hp : pro < 2 ^ 64) :
    c_find_moves gen pro &&& compl64 (gen ||| pro) = c_find_moves gen pro := by
  apply Nat.eq_of_testBit_eq
  intro i
  rw [Nat.testBit_and]
  cases hmi : (c_find_moves gen pro).testBit i
  · simp
  · obtain ⟨hfalse, hi64⟩ := find_moves_on_empty hg hp hmi
    rw [compl64_testBit_lt _ i hi64, hfalse]
    simp

/-- C8 (amended): moves are confined to empty squares, so the number of legal
moves is bounded by the number of empties, `64 - popcount(player) -
popcount(opp)`; the claimed constant bound 32 is refuted by
`C8_mobility_counterexample`. -/
theorem C8_mobility_bound (player opp : Nat) (hp : player < 2 ^ 64)
    (ho : opp < 2 ^ 64) (hd : player &&& opp = 0) :
    popcount (c_find_moves player opp) ≤ 64 - popcount player - popcount opp := by
  have h1 : popcount (c_find_moves player opp) ≤ popcount (compl64 (player ||| opp)) :=
    popcount_le_subset (find_moves_subset_empty hp ho)
  have h2 : popcount (player ||| opp) + popcount (compl64 (player ||| opp)) = 64 :=
    popcount_add_compl64 _
  have h3 : popcount (player ||| opp) = popcount player + popcount opp :=
    popcount_lor _ _ hd
  omega

theorem C8_mobility_bound_wit :
    ((0x0000000810000000 : Nat) < 2 ^ 64 ∧ (0x0000001008000000 : Nat) < 2 ^ 64 ∧
      (0x0000000810000000 : Nat) &&& 0x0000001008000000 = 0) ∧
    popcount (c_find_moves 0x0000000810000000 0x0000001008000000) ≤
      64 - popcount 0x0000000810000000 - popcount 0x0000001008000000 :=
  ⟨⟨by decide, by decide, by decide⟩,
    C8_mobility_bound 0x0000000810000000 0x0000001008000000 (by decide) (by decide)
      (by decide)⟩

/-- C8 counterexample: a disjoint pair of boards on which `c_find_moves` has
35 set bits, exceeding the claimed bound `MAX_MOVES = 32` (so the solver's
fixed-size scratch arrays can be overrun at such a root). -/
theorem C8_mobility_counterexample :
    (0x20241448280814 : Nat) &&& 0x565a4220445600 = 0 ∧
    popcount (c_find_moves 0x20241448280814 0x565a4220445600) = 35 ∧
    ¬(popcount (c_find_moves 0x20241448280814 0x565a4220445600) ≤ 32) := by
  refine ⟨by decide, by decide, by decide⟩

/-! ### Score-range analysis of the solver -/

theorem evaluate_range (player opp : Nat) :
    -64 ≤ evaluate player opp ∧ evaluate player opp ≤ 64 := by
  have h1 := popcount_le player
  have h2 := popcount_le opp
  unfold evaluate
  omega

theorem extractList_ne_nil {m : Nat} (h : m ≠ 0) : extractList m ≠ [] := by
  rw [extractList_cons m h]
  simp

theorem abLoop_le {rec : Nat → Nat → Int → Int → Int}
    (hrec : ∀ p o a b, -64 ≤ rec p o a b ∧ rec p o a b ≤ 64) :
    ∀ cs alpha beta maxScore, maxScore ≤ 64 →
      abLoop rec cs alpha beta maxScore ≤ 64 := by
  intro cs
  induction cs with
  | nil => intro alpha beta maxScore hm; simpa [abLoop] using hm
  | cons c rest ih =>
    intro alpha beta maxScore hm
    obtain ⟨pb, ob⟩ := c
    have hr := hrec ob pb (-beta) (-alpha)
    simp only [abLoop]
    split_ifs with h1 h2 h3
    · omega
    · exact ih _ _ _ (by omega)
    · exact ih _ _ _ (by omega)
    · exact ih _ _ _ hm

theorem abLoop_ge {rec : Nat → Nat → Int → Int → Int}
    (hrec : ∀ p o a b, -64 ≤ rec p o a b ∧ rec p o a b ≤ 64) :
    ∀ cs alpha beta maxScore, (cs ≠ [] ∨ -64 ≤ maxScore) →
      -64 ≤ abLoop rec cs alpha beta maxScore := by
  intro cs
  induction cs with
  | nil =>
    intro alpha beta maxScore hg
    rcases hg with hg | hg
    · exact absurd rfl hg
    · simpa [abLoop] using hg
  | cons c rest ih =>
    intro alpha beta maxScore _
    obtain ⟨pb, ob⟩ := c
    have hr := hrec ob pb (-beta) (-alpha)
    simp only [abLoop]
    split_ifs with h1 h2 h3
    · omega
    · exact ih _ _ _ (Or.inr (by omega))
    · exact ih _ _ _ (Or.inr (by omega))
    · exact ih _ _ _ (Or.inr (by omega))

theorem negamax_range : ∀ fuel player opp alpha beta passed,
    -64 ≤ negamax fuel player opp alpha beta passed ∧
      negamax fuel player opp alpha beta passed ≤ 64 := by
  intro fuel
  induction fuel with
  | zero => intro p o a b passed; exact evaluate_range p o
  | succ fuel ih =>
    intro p o a b passed
    simp only [negamax]
    by_cases hm : c_find_moves p o = 0
    · rw [if_pos hm]
      by_cases hpass : passed
      · rw [if_pos hpass]
        exact evaluate_range p o
      · rw [if_neg hpass]
        have := ih o p (-b) (-a) true
        omega
    · rw [if_neg hm]
      have hrec : ∀ p2 o2 a2 b2, -64 ≤ negamax fuel p2 o2 a2 b2 false ∧
          negamax fuel p2 o2 a2 b2 false ≤ 64 := fun p2 o2 a2 b2 => ih p2 o2 a2 b2 false
      constructor
      · apply abLoop_ge hrec
        left
        simp [extractList_ne_nil hm]
      · exact abLoop_le hrec _ _ _ _ (by norm_num)

theorem nffLoop_le {rec : Nat → Nat → Int → Int → Int}
    (hrec : ∀ p o a b, -64 ≤ rec p o a b ∧ rec p o a b ≤ 64)
    (entries : List (Nat × Nat)) :
    ∀ i mobs alpha beta maxScore, maxScore ≤ 64 →
      nffLoop rec entries i mobs alpha beta maxScore ≤ 64 := by
  intro i
  induction i with
  | zero => intro mobs alpha beta maxScore hm; simpa [nffLoop] using hm
  | succ i ih =>
    intro mobs alpha beta maxScore hm
    simp only [nffLoop]
    have hr := hrec (entries.getD ((pickIdx mobs).getD 0) (0, 0)).2
      (entries.getD ((pickIdx mobs).getD 0) (0, 0)).1 (-beta) (-alpha)
    split_ifs with h1 h2 h3
    · omega
    · exact ih _ _ _ _ (by omega)
    · exact ih _ _ _ _ (by omega)
    · exact ih _ _ _ _ hm

theorem nffLoop_ge {rec : Nat → Nat → Int → Int → Int}
    (hrec : ∀ p o a b, -64 ≤ rec p o a b ∧ rec p o a b ≤ 64)
    (entries : List (Nat × Nat)) :
    ∀ i mobs alpha beta maxScore, (1 ≤ i ∨ -64 ≤ maxScore) →
      -64 ≤ nffLoop rec entries i mobs alpha beta maxScore := by
  intro i
  induction i with
  | zero =>
    intro mobs alpha beta maxScore hg
    rcases hg with hg | hg
    · omega
    · simpa [nffLoop] using hg
  | succ i ih =>
    intro mobs alpha beta maxScore _
    simp only [nffLoop]
    have hr := hrec (entries.getD ((pickIdx mobs).getD 0) (0, 0)).2
      (entries.getD ((pickIdx mobs).getD 0) (0, 0)).1 (-beta) (-alpha)
    split_ifs with h1 h2 h3
    · omega
    · exact ih _ _ _ _ (Or.inr (by omega))
    · exact ih _ _ _ _ (Or.inr (by omega))
    · exact ih _ _ _ _ (Or.inr (by omega))

theorem nff_range : ∀ fuel player opp alpha beta passed depth,
    -64 ≤ negamax_fastest_first fuel player opp alpha beta passed depth ∧
      negamax_fastest_first fuel player opp alpha beta passed depth ≤ 64 := by
  intro fuel
  induction fuel with
  | zero => intro p o a b passed depth; exact evaluate_range p o
  | succ fuel ih =>
    intro p o a b passed depth
    simp only [negamax_fastest_first]
    by_cases hdep : depth < 5
    · rw [if_pos hdep]
      exact negamax_range (fuel + 1) p o a b passed
    · rw [if_neg hdep]
      by_cases hm : c_find_moves p o = 0
      · rw [if_pos hm]
        by_cases hpass : passed
        · rw [if_pos hpass]
          exact evaluate_range p o
        · rw [if_neg hpass]
          have := ih o p (-b) (-a) true depth
          omega
      · rw [if_neg hm]
        have hrec : ∀ p2 o2 a2 b2,
            -64 ≤ negamax_fastest_first fuel p2 o2 a2 b2 false (depth - 1) ∧
            negamax_fastest_first fuel p2 o2 a2 b2 false (depth - 1) ≤ 64 :=
          fun p2 o2 a2 b2 => ih p2 o2 a2 b2 false (depth - 1)
        constructor
        · apply nffLoop_ge hrec
          left
          have h1 : extractList (c_find_moves p o) ≠ [] := extractList_ne_nil hm
          simp only [List.length_map]
          exact List.length_pos.mpr h1
        · exact nffLoop_le hrec _ _ _ _ _ _ (by norm_num)

/-! ### The root loop of `c_solve_game` -/

theorem move_index_two_pow : ∀ k, move_index (2 ^ k) = k := by
  intro k
  induction k with
  | zero =>
    rw [move_index]
    norm_num
  | succ k ih =>
    have h1 : 2 ^ (k + 1) % 2 = 0 := by
      rw [pow_succ]
      exact Nat.mul_mod_left _ 2
    have h2 : 2 ^ (k + 1) / 2 = 2 ^ k := by
      rw [pow_succ]
      exact Nat.mul_div_cancel _ (by norm_num)
    have h3 : (2 : Nat) ^ (k + 1) ≠ 0 := by positivity
    rw [move_index, h1, if_neg (by norm_num : ¬(0 = 1)), dif_neg h3, h2, ih]
    omega

theorem solveLoop_spec (rec : Nat → Nat → Int)
    (hrec : ∀ p o, -64 ≤ rec p o ∧ rec p o ≤ 64) (player opp : Nat) :
    ∀ ms maxScore index,
      (∀ x ∈ ms, ∃ k, k < 64 ∧ x = 2 ^ k) →
      ((maxScore = -999 ∧ index = -1) ∨
        (0 ≤ index ∧ index ≤ 63 ∧ -64 ≤ maxScore ∧ maxScore ≤ 64)) →
      (ms ≠ [] ∨ (0 ≤ index ∧ index ≤ 63 ∧ -64 ≤ maxScore ∧ maxScore ≤ 64)) →
      0 ≤ (solveLoop rec player opp ms maxScore index).2 ∧
        (solveLoop rec player opp ms maxScore index).2 ≤ 63 ∧
        -64 ≤ (solveLoop rec player opp ms maxScore index).1 ∧
        (solveLoop rec player opp ms maxScore index).1 ≤ 64 := by
  intro ms
  induction ms with
  | nil =>
    intro maxScore index _ _ hguard
    rcases hguard with hguard | hguard
    · exact absurd rfl hguard
    · simpa [solveLoop] using hguard
  | cons new rest ih =>
    intro maxScore index helem hinv _
    obtain ⟨k, hk64, hkeq⟩ := helem new (List.mem_cons_self new rest)
    have hrange := hrec (child_boards player opp new).2 (child_boards player opp new).1
    simp only [solveLoop]
    split_ifs with h1
    · apply ih _ _ (fun x hx => helem x (List.mem_cons_of_mem _ hx))
      · right
        refine ⟨?_, ?_, by omega, by omega⟩
        · rw [hkeq, move_index_two_pow]
          omega
        · rw [hkeq, move_index_two_pow]
          omega
      · right
        refine ⟨?_, ?_, by omega, by omega⟩
        · rw [hkeq, move_index_two_pow]
          omega
        · rw [hkeq, move_index_two_pow]
          omega
    · apply ih _ _ (fun x hx => helem x (List.mem_cons_of_mem _ hx))
      · rcases hinv with ⟨hms, _⟩ | hinv
        · omega
        · exact Or.inr hinv
      · rcases hinv with ⟨hms, _⟩ | hinv
        · omega
        · exact Or.inr hinv

theorem find_moves_lt {gen pro : Nat} (hg : gen < 2 ^ 64) (hp : pro < 2 ^ 64) :
    c_find_moves gen pro < 2 ^ 64 := by
  have hor : gen ||| pro < 2 ^ 64 := Nat.or_lt_two_pow hg hp
  have hempty : compl64 (gen ||| pro) < 2 ^ 64 :=
    Nat.xor_lt_two_pow hor (by norm_num [mask64])
  simp only [c_find_moves]
  refine Nat.or_lt_two_pow (Nat.or_lt_two_pow (Nat.or_lt_two_pow (Nat.or_lt_two_pow
    (Nat.or_lt_two_pow (Nat.or_lt_two_pow (Nat.or_lt_two_pow ?_ ?_) ?_) ?_) ?_) ?_) ?_) ?_ <;>
    exact Nat.and_lt_two_pow _ hempty

/-- Shared sentinel analysis of `c_solve_game`. -/
theorem c_solve_game_sentinel {player opp : Nat}
    (hm : c_find_moves player opp = 0) :
    c_solve_game player opp = { x := -1, y := -1, score := 999 } := by
  simp only [c_solve_game, hm, extractList_nil, solveLoop]
  norm_num

/-- Shared analysis of `c_solve_game` when a legal move exists. -/
theorem c_solve_game_moves {player opp : Nat} (hp : player < 2 ^ 64)
    (ho : opp < 2 ^ 64) (hm : c_find_moves player opp ≠ 0) :
    0 ≤ (c_solve_game player opp).x ∧ (c_solve_game player opp).x ≤ 7 ∧
    0 ≤ (c_solve_game player opp).y ∧ (c_solve_game player opp).y ≤ 7 ∧
    (c_solve_game player opp).score < 999 := by
  have hlt := find_moves_lt hp ho
  have hspec := solveLoop_spec
    (fun p o => negamax_fastest_first solveFuel p o (-INITIAL_BOUND)
      INITIAL_BOUND false (64 - (popcount player : Int) - (popcount opp : Int)))
    (fun p o => nff_range solveFuel p o (-INITIAL_BOUND) INITIAL_BOUND false _)
    player opp (extractList (c_find_moves player opp)) (-999) (-1)
    (fun x hx => extractList_mem_pow _ hlt x hx)
    (Or.inl ⟨rfl, rfl⟩)
    (Or.inl (extractList_ne_nil hm))
  obtain ⟨hi0, hi63, hs0, hs64⟩ := hspec
  simp only [c_solve_game]
  rw [if_neg (by omega)]
  dsimp only
  refine ⟨?_, ?_, ?_, ?_, by omega⟩
  · exact Int.emod_nonneg _ (by norm_num)
  · have := Int.emod_lt_of_pos
      (solveLoop (fun p o => negamax_fastest_first solveFuel p o (-INITIAL_BOUND)
        INITIAL_BOUND false (64 - (popcount player : Int) - (popcount opp : Int)))
        player opp (extractList (c_find_moves player opp)) (-999) (-1)).2
      (b := 8) (by norm_num)
    omega
  · exact Int.ediv_nonneg (by omega) (by norm_num)
  · calc (solveLoop _ player opp _ (-999) (-1)).2 / 8 ≤ 63 / 8 :=
      Int.ediv_le_ediv (by norm_num) (by omega)
    _ = 7 := by norm_num

/-! ### Claim theorem C1 -/

/-- C1: `c_solve_game` returns the sentinel `{-1, -1, 999}` exactly when the
side to move has no legal move; otherwise (for disjoint boards) it returns
coordinates in `[0, 7]` and a score strictly below 999. -/
theorem C1_solver_sentinel (player opp : Nat) (hp : player < 2 ^ 64)
    (ho : opp < 2 ^ 64) (_hd : player &&& opp = 0) :
    (c_solve_game player opp = { x := -1, y := -1, score := 999 } ↔
      c_find_moves player opp = 0) ∧
    (c_find_moves player opp ≠ 0 →
      0 ≤ (c_solve_game player opp).x ∧ (c_solve_game player opp).x ≤ 7 ∧
      0 ≤ (c_solve_game player opp).y ∧ (c_solve_game player opp).y ≤ 7 ∧
      (c_solve_game player opp).score < 999) := by
  constructor
  · constructor
    · intro hres
      by_contra hm
      have := (c_solve_game_moves hp ho hm).1
      rw [hres] at this
      simp at this
    · exact c_solve_game_sentinel
  · exact c_solve_game_moves hp ho

theorem C1_solver_sentinel_wit :
    ((0x0000000810000000 : Nat) < 2 ^ 64 ∧ (0x0000001008000000 : Nat) < 2 ^ 64 ∧
      (0x0000000810000000 : Nat) &&& 0x0000001008000000 = 0 ∧
      c_find_moves 0x0000000810000000 0x0000001008000000 ≠ 0) ∧
    ((c_solve_game 0x0000000810000000 0x0000001008000000 =
        { x := -1, y := -1, score := 999 } ↔
      c_find_moves 0x0000000810000000 0x0000001008000000 = 0) ∧
    (c_find_moves 0x0000000810000000 0x0000001008000000 ≠ 0 →
      0 ≤ (c_solve_game 0x0000000810000000 0x0000001008000000).x ∧
      (c_solve_game 0x0000000810000000 0x0000001008000000).x ≤ 7 ∧
      0 ≤ (c_solve_game 0x0000000810000000 0x0000001008000000).y ∧
      (c_solve_game 0x0000000810000000 0x0000001008000000).y ≤ 7 ∧
      (c_solve_game 0x0000000810000000 0x0000001008000000).score < 999)) :=
  ⟨⟨by decide, by decide, by decide, by decide⟩,
    C1_solver_sentinel 0x0000000810000000 0x0000001008000000 (by decide) (by decide)
      (by decide)⟩

/-! ### Serialization analysis (C7, C10) -/

/-- The matrix cell that `_serialize` maps to bit position `i` (row-major
big-endian packing sends cell `(y, x)` to bit `63 - (8y + x)`). -/
def mat_bit (m : Fin 8 → Fin 8 → Bool) (i : Nat) : Bool :=
  m ⟨(63 - i) / 8 % 8, by omega⟩ ⟨(63 - i) % 8, by omega⟩

theorem serialize_eq_bitsum (m : Fin 8 → Fin 8 → Bool) :
    _serialize m = ∑ i ∈ Finset.range 64, (if mat_bit m i then 2 ^ i else 0) := by
  rw [_serialize]
  have h1 : ∀ j : Fin 64,
      (if m ⟨j.val / 8, by have := j.isLt; omega⟩ ⟨j.val % 8, by omega⟩
        then 2 ^ (63 - j.val) else 0)
      = (fun jv => if mat_bit m (63 - jv) then 2 ^ (63 - jv) else 0) j.val := by
    intro j
    obtain ⟨jv, hj⟩ := j
    simp only [mat_bit]
    have e1 : 63 - (63 - jv) = jv := by omega
    have e2 : jv / 8 % 8 = jv / 8 := by omega
    simp only [e1, e2]
  rw [Finset.sum_congr rfl (fun j _ => h1 j),
    Fin.sum_univ_eq_sum_range
      (fun jv => if mat_bit m (63 - jv) then 2 ^ (63 - jv) else 0) 64]
  rw [← Finset.sum_range_reflect (fun i => if mat_bit m i then 2 ^ i else 0) 64]

theorem bitsum_lt (P : Nat → Bool) :
    ∀ n, (∑ i ∈ Finset.range n, (if P i then 2 ^ i else 0)) < 2 ^ n := by
  intro n
  induction n with
  | zero => simp
  | succ n ih =>
    rw [Finset.sum_range_succ]
    have h2 : (2 : Nat) ^ (n + 1) = 2 ^ n + 2 ^ n := by rw [pow_succ]; omega
    have hle : (if P n then 2 ^ n else 0) ≤ 2 ^ n := by split <;> omega
    omega

theorem testBit_bitsum (P : Nat → Bool) :
    ∀ n i, (∑ j ∈ Finset.range n, (if P j then 2 ^ j else 0)).testBit i =
      (decide (i < n) && P i) := by
  intro n
  induction n with
  | zero => intro i; simp
  | succ n ih =>
    intro i
    rw [Finset.sum_range_succ]
    have hS := bitsum_lt P n
    rcases lt_trichotomy i n with hin | hin | hin
    · have hi1 : i < n + 1 := by omega
      cases hP : P n
      · simp [ih i, hin, hi1]
      · rw [if_pos rfl, Nat.add_comm, Nat.testBit_two_pow_add_gt hin, ih i]
        simp [hin, hi1]
    · rw [hin]
      cases hP : P n
      · simp [Nat.testBit_lt_two_pow hS]
      · rw [if_pos rfl, Nat.add_comm, Nat.testBit_two_pow_add_eq,
          Nat.testBit_lt_two_pow hS]
        simp
    · have hi1 : ¬(i < n + 1) := by omega
      have hlt : (∑ j ∈ Finset.range n, (if P j then 2 ^ j else 0)) +
          (if P n then 2 ^ n else 0) < 2 ^ i := by
        have hle : (if P n then 2 ^ n else 0) ≤ 2 ^ n := by split <;> omega
        have hpow : (2 : Nat) ^ (n + 1) ≤ 2 ^ i :=
          Nat.pow_le_pow_right (by norm_num) hin
        have h2 : (2 : Nat) ^ (n + 1) = 2 ^ n + 2 ^ n := by rw [pow_succ]; omega
        omega
      rw [Nat.testBit_lt_two_pow hlt]
      simp [hi1]

theorem bitsum_eq_self : ∀ n, ∀ x, x < 2 ^ n →
    (∑ i ∈ Finset.range n, (if x.testBit i then 2 ^ i else 0)) = x := by
  intro n
  induction n with
  | zero =>
    intro x hx
    interval_cases x
    simp
  | succ n ih =>
    intro x hx
    rw [Finset.sum_range_succ]
    have hcongr : ∀ i ∈ Finset.range n,
        (if x.testBit i then 2 ^ i else 0) =
          (if (x % 2 ^ n).testBit i then 2 ^ i else 0) := by
      intro i hi
      rw [Nat.testBit_mod_two_pow]
      simp [Finset.mem_range.mp hi]
    rw [Finset.sum_congr rfl hcongr, ih (x % 2 ^ n) (Nat.mod_lt _ (by positivity))]
    have hbit : x.testBit n = decide (x / 2 ^ n % 2 = 1) := Nat.testBit_to_div_mod
    have hdiv : x / 2 ^ n < 2 := by
      rw [Nat.div_lt_iff_lt_mul (by positivity)]
      calc x < 2 ^ (n + 1) := hx
      _ = 2 * 2 ^ n := by rw [pow_succ, Nat.mul_comm]
    rcases Nat.le_one_iff_eq_zero_or_eq_one.mp (Nat.le_of_lt_succ hdiv) with h | h
    · have hxlt : x < 2 ^ n := by
        have := (Nat.div_eq_zero_iff (by positivity : 0 < 2 ^ n)).mp h
        exact this
      rw [Nat.testBit_lt_two_pow hxlt]
      simp only [Bool.false_eq_true, if_false, Nat.add_zero]
      exact Nat.mod_eq_of_lt hxlt
    · rw [h] at hbit
      norm_num at hbit
      rw [hbit, if_pos rfl]
      have hdm := Nat.div_add_mod x (2 ^ n)
      rw [h, Nat.mul_one] at hdm
      omega

theorem serialize_testBit (m : Fin 8 → Fin 8 → Bool) (i : Nat) :
    (_serialize m).testBit i = (decide (i < 64) && mat_bit m i) := by
  rw [serialize_eq_bitsum, testBit_bitsum]

theorem serialize_lt (m : Fin 8 → Fin 8 → Bool) : _serialize m < 2 ^ 64 := by
  rw [serialize_eq_bitsum]
  exact bitsum_lt _ 64

/-- C7: serialization round-trips: `_deserialize ∘ _serialize` is the identity
on 8×8 boolean matrices, and `_serialize ∘ _deserialize` is the identity on
64-bit words. -/
theorem C7_serialization_roundtrip :
    (∀ m : Fin 8 → Fin 8 → Bool, _deserialize (_serialize m) = m) ∧
    (∀ b : Nat, b < 2 ^ 64 → _serialize (_deserialize b) = b) := by
  constructor
  · intro m
    funext y x
    obtain ⟨yv, hy⟩ := y
    obtain ⟨xv, hx⟩ := x
    rw [_deserialize, serialize_testBit]
    have hi : 63 - (8 * yv + xv) < 64 := by omega
    simp only [mat_bit]
    have e1 : 63 - (63 - (8 * yv + xv)) = 8 * yv + xv := by omega
    have e2 : (8 * yv + xv) / 8 % 8 = yv := by omega
    have e3 : (8 * yv + xv) % 8 = xv := by omega
    simp only [e1, e2, e3]
    simp [hi]
  · intro b hb
    rw [serialize_eq_bitsum]
    have hcongr : ∀ i ∈ Finset.range 64,
        (if mat_bit (_deserialize b) i then 2 ^ i else 0) =
          (if b.testBit i then 2 ^ i else 0) := by
      intro i hi
      have hi64 : i < 64 := Finset.mem_range.mp hi
      simp only [mat_bit, _deserialize]
      have e1 : 8 * ((63 - i) / 8 % 8) + (63 - i) % 8 = 63 - i := by omega
      have e2 : 63 - (63 - i) = i := by omega
      simp only [e1, e2]
    rw [Finset.sum_congr rfl hcongr]
    exact bitsum_eq_self 64 b hb

theorem C7_serialization_roundtrip_wit :
    _deserialize (_serialize (fun y x => decide (y.val = x.val))) =
      (fun y x => decide (y.val = x.val)) ∧
    ((0x0000000810000000 : Nat) < 2 ^ 64 ∧
      _serialize (_deserialize 0x0000000810000000) = 0x0000000810000000) :=
  ⟨C7_serialization_roundtrip.1 _,
    by decide, C7_serialization_roundtrip.2 0x0000000810000000 (by decide)⟩

/-! ### Claim theorem C10 -/

/-- C10: when the C solver reports no legal move, the Python wrapper applies
the coordinate reversal `(7 - x, 7 - y)` to the sentinel too, handing the
external caller `(8, 8, 999)` rather than `(-1, -1, 999)`. -/
theorem C10_sentinel_reversal (player opp : Fin 8 → Fin 8 → Bool)
    (h : c_find_moves (_serialize player) (_serialize opp) = 0) :
    solve_game player opp = (8, 8, 999) := by
  simp only [solve_game, c_solve_game_sentinel h]
  norm_num

theorem C10_sentinel_reversal_wit :
    c_find_moves (_serialize (fun _ _ => false)) (_serialize (fun _ _ => true)) = 0 ∧
    solve_game (fun _ _ => false) (fun _ _ => true) = (8, 8, 999) :=
  ⟨by decide, C10_sentinel_reversal (fun _ _ => false) (fun _ _ => true) (by decide)⟩

/-! ### Rollout analysis (C6, C9) -/

theorem popcount_div2 (b : Nat) (hb : b < 2 ^ 64) :
    popcount b = b % 2 + popcount (b / 2) := by
  rw [popcount_eq_sum b, Finset.sum_range_succ']
  have hc : ∀ i ∈ Finset.range 63,
      (if b.testBit (i + 1) then 1 else 0) = (if (b / 2).testBit i then 1 else 0) := by
    intro i _
    rw [Nat.testBit_add_one]
  rw [Finset.sum_congr rfl hc]
  have h2 : popcount (b / 2) = ∑ i ∈ Finset.range 63, (if (b / 2).testBit i then 1 else 0) := by
    rw [popcount_eq_sum (b / 2), Finset.sum_range_succ]
    have h63 : (b / 2).testBit 63 = false := by
      rw [Nat.testBit_div_two]
      exact testBit_false_of_ge hb (by omega)
    rw [h63]
    simp
  rw [← h2, Nat.testBit_zero]
  rcases Nat.mod_two_eq_zero_or_one b with h | h <;> simp [h] <;> omega

/-- Correctness of the spec-modelled `select_bit`: for `rank ∈ [1, popcount b]`
it returns the 1-based position of a set bit. -/
theorem select_bit_spec : ∀ b, b < 2 ^ 64 → ∀ rank, 1 ≤ rank →
    rank ≤ popcount b →
    1 ≤ select_bit b rank ∧ b.testBit (select_bit b rank - 1) = true := by
  intro b
  induction b using Nat.strong_induction_on with
  | _ b ih =>
    intro hb rank hr1 hr2
    by_cases h0 : b = 0
    · subst h0
      rw [(popcount_eq_zero 0 (by norm_num)).mpr rfl] at hr2
      omega
    · have hdivlt : b / 2 < b := Nat.div_lt_self (Nat.pos_of_ne_zero h0) one_lt_two
      have hdiv64 : b / 2 < 2 ^ 64 := lt_of_le_of_lt (Nat.div_le_self _ _) hb
      rw [select_bit, dif_neg h0]
      by_cases hodd : b % 2 = 1
      · rw [if_pos hodd]
        by_cases hrle : rank ≤ 1
        · rw [if_pos hrle]
          refine ⟨le_refl 1, ?_⟩
          simp [Nat.testBit_zero, hodd]
        · rw [if_neg hrle]
          have hpc := popcount_div2 b hb
          obtain ⟨hs1, hsbit⟩ := ih (b / 2) hdivlt hdiv64 (rank - 1) (by omega) (by omega)
          refine ⟨by omega, ?_⟩
          have e1 : 1 + select_bit (b / 2) (rank - 1) - 1 =
              (select_bit (b / 2) (rank - 1) - 1) + 1 := by omega
          rw [e1, Nat.testBit_add_one]
          exact hsbit
      · rw [if_neg hodd]
        have hpc := popcount_div2 b hb
        have hmod : b % 2 = 0 := by omega
        obtain ⟨hs1, hsbit⟩ := ih (b / 2) hdivlt hdiv64 rank hr1 (by omega)
        refine ⟨by omega, ?_⟩
        have e1 : 1 + select_bit (b / 2) rank - 1 =
            (select_bit (b / 2) rank - 1) + 1 := by omega
        rw [e1, Nat.testBit_add_one]
        exact hsbit

theorem random_select_spec {moves : Nat} (hm : moves ≠ 0) (hlt : moves < 2 ^ 64)
    (r : Nat) : ∃ k, k < 64 ∧ random_select r moves = 2 ^ k ∧
      moves.testBit k = true := by
  have hpc : popcount moves ≠ 0 := fun h => hm ((popcount_eq_zero moves hlt).mp h)
  have hr : r % popcount moves < popcount moves := Nat.mod_lt _ (by omega)
  obtain ⟨hs1, hsbit⟩ := select_bit_spec moves hlt (r % popcount moves + 1)
    (by omega) (by omega)
  refine ⟨select_bit moves (r % popcount moves + 1) - 1,
    lt_of_testBit_64 hlt hsbit, ?_, hsbit⟩
  rw [random_select]
  rw [Nat.shiftLeft_eq, Nat.one_mul]

theorem c_resolve_move_lt {player opp new_disk : Nat} (hp : player < 2 ^ 64)
    (hn : new_disk < 2 ^ 64) : c_resolve_move player opp new_disk < 2 ^ 64 := by
  simp only [c_resolve_move]
  refine Nat.or_lt_two_pow (Nat.or_lt_two_pow (Nat.or_lt_two_pow (Nat.or_lt_two_pow
    (Nat.or_lt_two_pow (Nat.or_lt_two_pow (Nat.or_lt_two_pow ?_ ?_) ?_) ?_) ?_) ?_) ?_) ?_
  · exact Nat.and_lt_two_pow _ (occlL_lt 8 _ _ hn)
  · exact Nat.and_lt_two_pow _ (occlR_lt 8 _ _ hn)
  · exact Nat.and_lt_two_pow _ (occlR_lt 1 _ _ hn)
  · exact Nat.and_lt_two_pow _ (occlL_lt 1 _ _ hn)
  · exact Nat.and_lt_two_pow _ (occlL_lt 9 _ _ hn)
  · exact Nat.and_lt_two_pow _ (occlR_lt 9 _ _ hn)
  · exact Nat.and_lt_two_pow _ (occlL_lt 7 _ _ hn)
  · exact Nat.and_lt_two_pow _ (occlR_lt 7 _ _ hn)

/-- After a move on empty square `k`, the occupied set gains exactly bit `k`. -/
theorem occupied_after {a o k : Nat} (hd : a &&& o = 0)
    (hempty : (a ||| o).testBit k = false) :
    ((a ^^^ c_resolve_move a o (2 ^ k)) ||| 2 ^ k) ||| (o ^^^ c_resolve_move a o (2 ^ k)) =
      (a ||| o) ||| 2 ^ k := by
  have hdis : ∀ j, a.testBit j = true → o.testBit j = true → False := by
    intro j hj1 hj2
    have := congrArg (fun z => z.testBit j) hd
    simp [Nat.testBit_and, hj1, hj2] at this
  apply Nat.eq_of_testBit_eq
  intro i
  simp only [Nat.testBit_or, Nat.testBit_xor]
  cases hfi : (c_resolve_move a o (2 ^ k)).testBit i
  · cases a.testBit i <;> cases o.testBit i <;> cases (2 ^ k).testBit i <;> simp
  · have hoi : o.testBit i = true := flips_subset hempty i hfi
    have hai : a.testBit i = false := by
      cases hai : a.testBit i
      · rfl
      · exact (hdis i hai hoi).elim
    simp [hoi, hai]

theorem compl64_or_singleton {occ k : Nat} (hk : k < 64)
    (hocc : occ.testBit k = false) :
    compl64 (occ ||| 2 ^ k) = compl64 occ ^^^ 2 ^ k := by
  apply Nat.eq_of_testBit_eq
  intro i
  by_cases hi : i < 64
  · rw [compl64_testBit_lt _ _ hi, Nat.testBit_xor, compl64_testBit_lt _ _ hi,
      Nat.testBit_or, Nat.testBit_two_pow]
    by_cases hik : k = i
    · subst hik
      simp [hocc]
    · simp [hik]
  · rw [compl64_testBit, Nat.testBit_xor, compl64_testBit, Nat.testBit_or]
    have hki : (2 ^ k).testBit i = false := Nat.testBit_two_pow_of_ne (by omega)
    simp [hki, hi]

theorem popcount_fill_empty {occ k : Nat} (hk : k < 64)
    (hocc : occ.testBit k = false) :
    popcount (compl64 (occ ||| 2 ^ k)) + 1 = popcount (compl64 occ) := by
  rw [compl64_or_singleton hk hocc]
  have hsub : 2 ^ k &&& compl64 occ = 2 ^ k := by
    apply Nat.eq_of_testBit_eq
    intro i
    rw [Nat.testBit_and, Nat.testBit_two_pow]
    by_cases hik : k = i
    · subst hik
      rw [compl64_testBit_lt _ _ hk, hocc]
      simp
    · simp [hik]
  have := popcount_xor_subset (compl64 occ) (2 ^ k) hsub
  rw [popcount_two_pow k hk] at this
  omega

theorem rolloutLoop_isSome (rng : Nat → Nat) :
    ∀ fuel t sp jp active other,
      active &&& other = 0 → active < 2 ^ 64 → other < 2 ^ 64 →
      2 * popcount (compl64 (active ||| other)) + (if jp then 1 else 2) ≤ fuel →
      (rolloutLoop rng fuel t sp jp active other).isSome = true := by
  intro fuel
  induction fuel with
  | zero =>
    intro t sp jp a o _ _ _ hm
    have h1 : (1 : Nat) ≤ if jp then 1 else 2 := by cases jp <;> simp
    omega
  | succ fuel ih =>
    intro t sp jp a o hd ha ho hm
    rw [rolloutLoop]
    by_cases hmv : c_find_moves a o = 0
    · rw [if_pos hmv]
      cases jp
      · rw [if_neg (by simp)]
        apply ih
        · rw [Nat.and_comm]
          exact hd
        · exact ho
        · exact ha
        · rw [Nat.lor_comm]
          rw [show (if (true : Bool) then 1 else 2 : Nat) = 1 from rfl]
          rw [show (if (false : Bool) then 1 else 2 : Nat) = 2 from rfl] at hm
          omega
      · rw [if_pos rfl]
        simp
    · rw [if_neg hmv]
      obtain ⟨k, hk64, hsel, hbit⟩ :=
        random_select_spec hmv (find_moves_lt ha ho) (rng t)
      obtain ⟨hempty, _⟩ := find_moves_on_empty ha ho hbit
      rw [hsel]
      have hflt : c_resolve_move a o (2 ^ k) < 2 ^ 64 :=
        c_resolve_move_lt ha (Nat.pow_lt_pow_right (by norm_num) hk64)
      have hdis2 := post_disjoint hd hempty
      have hocc := occupied_after hd hempty
      have hocck : (a ||| o).testBit k = false := hempty
      have hE := popcount_fill_empty hk64 hocck
      apply ih
      · rw [Nat.and_comm]
        exact hdis2
      · exact Nat.xor_lt_two_pow ho hflt
      · exact Nat.or_lt_two_pow (Nat.xor_lt_two_pow ha hflt)
          (Nat.pow_lt_pow_right (by norm_num) hk64)
      · rw [Nat.lor_comm, hocc]
        rw [show (if (false : Bool) then 1 else 2 : Nat) = 2 from rfl]
        have hjp : 1 ≤ (if jp then 1 else 2 : Nat) := by cases jp <;> simp
        omega

/-- C9: for every random stream and disjoint 64-bit boards, the rollout loop
terminates (fuel 131 = 2·64 + 3 > 2·empties + 2 always suffices). -/
theorem C9_rollout_terminates (rng : Nat → Nat) (active other : Nat)
    (hd : active &&& other = 0) (ha : active < 2 ^ 64) (ho : other < 2 ^ 64) :
    (_random_rollout rng active other).isSome = true := by
  have hle := popcount_le (compl64 (active ||| other))
  have h := rolloutLoop_isSome rng 131 0 true false active other hd ha ho
    (by rw [show (if (false : Bool) then 1 else 2 : Nat) = 2 from rfl]; omega)
  rw [_random_rollout]
  cases hres : rolloutLoop rng 131 0 true false active other
  · rw [hres] at h
    simp at h
  · rfl

theorem C9_rollout_terminates_wit :
    ((0x0000000810000000 : Nat) &&& 0x0000001008000000 = 0 ∧
      (0x0000000810000000 : Nat) < 2 ^ 64 ∧ (0x0000001008000000 : Nat) < 2 ^ 64) ∧
    (_random_rollout (fun _ => 0) 0x0000000810000000 0x0000001008000000).isSome = true :=
  ⟨⟨by decide, by decide, by decide⟩,
    C9_rollout_terminates (fun _ => 0) 0x0000000810000000 0x0000001008000000
      (by decide) (by decide) (by decide)⟩

/-- C6: from a position where neither side can move, the rollout plays no
move and reports the outcome by disk count: a draw on equal counts, a win for
the side to move when it has more disks, and a loss when it has fewer. -/
theorem C6_double_pass (rng : Nat → Nat) (active other : Nat)
    (_hd : active &&& other = 0)
    (h1 : c_find_moves active other = 0)
    (h2 : c_find_moves other active = 0) :
    (popcount active = popcount other →
      _random_rollout rng active other = some Rollout_Result.DRAW) ∧
    (popcount other < popcount active →
      _random_rollout rng active other = some Rollout_Result.ACTIVE) ∧
    (popcount active < popcount other →
      _random_rollout rng active other = some Rollout_Result.OPPONENT) := by
  have hloop : rolloutLoop rng 131 0 true false active other =
      some (false, other, active) := by
    rw [show (131 : Nat) = 130 + 1 from rfl, rolloutLoop, if_pos h1,
      if_neg (by simp), show (130 : Nat) = 129 + 1 from rfl, rolloutLoop,
      if_pos h2, if_pos rfl]
    simp
  rw [_random_rollout, hloop]
  simp only [Option.map_some']
  dsimp only
  refine ⟨?_, ?_, ?_⟩
  · intro hcmp
    congr 1
    rw [if_pos (by omega)]
  · intro hcmp
    congr 1
    rw [if_neg (by omega), if_pos (by simp only [decide_eq_false_iff_not]; omega)]
  · intro hcmp
    congr 1
    rw [if_neg (by omega),
      if_neg (by simp only [decide_eq_false_iff_not, not_not]; omega)]

theorem C6_double_pass_wit :
    ((1 : Nat) &&& 0 = 0 ∧ c_find_moves 1 0 = 0 ∧ c_find_moves 0 1 = 0 ∧
      popcount 0 < popcount 1) ∧
    _random_rollout (fun _ => 0) 1 0 = some Rollout_Result.ACTIVE :=
  ⟨⟨by decide, by decide, by decide, by decide⟩,
    (C6_double_pass (fun _ => 0) 1 0 (by decide) (by decide) (by decide)).2.1
      (by decide)⟩

end Seldon
